import Mathlib

set_option maxHeartbeats 1000000

/-! Verification development for the MacNCheese / MacNdCheese game-launcher
repository. The definitions below are a shallow embedding of the Python
source: paths are modelled as an absolute flag plus a list of components
(mirroring pathlib normalisation: repeated and trailing separators and
single-dot components are dropped), a filesystem is a finite list of
entries (files carry a stat size and a content, directories carry a stat
size), and each Python function of the core is translated into a Lean
function over this model. Text that the Python code obtains from the
key/value regular-expression scanner is passed in already split into
(key, value) pairs. -/

/-! ## Character and string helpers (models of Python str operations) -/

/-- ASCII lower-casing of one character, as Python lower() acts on ASCII. -/
def chLower (c : Char) : Char :=
  if 65 ≤ c.toNat ∧ c.toNat ≤ 90 then Char.ofNat (c.toNat + 32) else c

/-- Model of str.lower() on the character list of a string. -/
def strLower (s : String) : String := String.mk (s.data.map chLower)

/-- Does the first character list occur at the head of the second? -/
def chStarts : List Char → List Char → Bool
  | [], _ => true
  | _ :: _, [] => false
  | a :: as, b :: bs => a == b && chStarts as bs

/-- Does the needle occur as a contiguous run inside the haystack?
Model of the Python substring test (needle in haystack). -/
def chHasSub (needle : List Char) : List Char → Bool
  | [] => chStarts needle []
  | c :: t => chStarts needle (c :: t) || chHasSub needle t

/-- Model of (needle in hay) on Python strings. -/
def strContains (hay needle : String) : Bool := chHasSub needle.data hay.data

/-- Model of str.endswith. -/
def strEndsWith (s sfx : String) : Bool := chStarts sfx.data.reverse s.data.reverse

/-- Model of str.startswith. -/
def strStartsW (s pre : String) : Bool := chStarts pre.data s.data

/-- Model of s.replace(" ", ""): drop every space. -/
def stripSpaces (s : String) : String :=
  String.mk (s.data.filter (fun c => !(c == ' ')))

/-- Lexicographic code-point comparison of character lists; this is how
Python compares strings. -/
def chListLe : List Char → List Char → Bool
  | [], _ => true
  | _ :: _, [] => false
  | a :: as, b :: bs => if a == b then chListLe as bs else decide (a.toNat < b.toNat)

/-! ## Paths

A UPath is the shallow embedding of a pathlib PurePosixPath: whether the
path is absolute, and its list of components. -/

structure UPath where
  abs : Bool
  comps : List String
deriving DecidableEq, Repr

/-- Append a relative component list to a path. -/
def UPath.extend (p : UPath) (rel : List String) : UPath := ⟨p.abs, p.comps ++ rel⟩

/-- The pathlib (slash) operator with a single-name right operand. -/
def UPath.child (p : UPath) (s : String) : UPath := p.extend [s]

/-- Path.parent: drop the last component. -/
def UPath.parentDir (p : UPath) : UPath := ⟨p.abs, p.comps.dropLast⟩

/-- Is the first character a slash (the path is absolute)? -/
def headSlash : List Char → Bool
  | [] => false
  | c :: _ => c == '/'

/-- Does the list begin inside a field, i.e. is it nonempty and not at a
slash? -/
def isFieldHead : List Char → Bool
  | [] => false
  | c :: _ => !(c == '/')

/-- The maximal runs of non-slash characters of a character list, in
order; empty runs produced by repeated, leading or trailing slashes do
not appear. -/
def nfields : List Char → List (List Char)
  | [] => []
  | c :: rest =>
    if c == '/' then nfields rest
    else if isFieldHead rest then
      match nfields rest with
      | [] => [[c]]
      | f :: fs => (c :: f) :: fs
    else [c] :: nfields rest

/-- Parse a character list as a POSIX path the way pathlib does: record
whether it is absolute, split it into components, and drop empty and
single-dot components. -/
def parseChars (cs : List Char) : UPath :=
  ⟨headSlash cs, ((nfields cs).filter (fun f => !(f == ['.']))).map (fun f => String.mk f)⟩

/-- Parse a Lean string as a pathlib path. -/
def parsePosix (s : String) : UPath := parseChars s.data

/-! ## SteamScanner.windows_path_to_unix -/

/-- Model of value.replace with a two-backslash pattern and a
one-backslash replacement: collapse each pair of backslashes, scanning
left to right without overlap. -/
def collapseBS : List Char → List Char
  | [] => []
  | [c] => [c]
  | a :: b :: rest =>
    if a == '\\' && b == '\\' then '\\' :: collapseBS rest
    else a :: collapseBS (b :: rest)

/-- Replace every backslash by a forward slash. -/
def replBS (cs : List Char) : List Char :=
  cs.map (fun c => if c == '\\' then '/' else c)

/-- Does the text match the anchored drive pattern: an ASCII letter, a
colon and a backslash? -/
def driveMatchB : List Char → Bool
  | c0 :: c1 :: c2 :: _ => c0.isAlpha && (c1 == ':') && (c2 == '\\')
  | _ => false

/-- The pathlib join of a base path with a parsed right operand: an
absolute right operand replaces the base entirely. -/
def joinRel (base : UPath) (cs : List Char) : UPath :=
  let q := parseChars cs
  if q.abs then q else ⟨base.abs, base.comps ++ q.comps⟩

/-- SteamScanner.windows_path_to_unix: collapse doubled backslashes; a
drive-rooted value maps below sandboxRoot/drive_(letter) (the source
special-cases the c drive to the literal string drive_c, which equals
what the general formatting produces), anything else is parsed with
backslashes turned into slashes. -/
def windows_path_to_unix (pfx : UPath) (value : String) : UPath :=
  let normalized := collapseBS value.data
  if driveMatchB normalized then
    let drive := chLower (normalized.headD ' ')
    let base := pfx.child ("drive_" ++ String.mk [drive])
    joinRel base (replBS (normalized.drop 3))
  else parseChars (replBS normalized)

/-! ## Filesystem model

A filesystem is a finite list of entries; an entry is a path together
with its kind: a regular file with its stat size and content, or a
directory with its stat size. Lookup returns the first entry at a path. -/

inductive FsKind where
  | file (size : Nat) (content : String)
  | dir (size : Nat)
deriving DecidableEq, Repr

structure FsEntry where
  path : UPath
  kind : FsKind
deriving DecidableEq, Repr

abbrev Fs := List FsEntry

def fsFind : Fs → UPath → Option FsKind
  | [], _ => none
  | e :: rest, p => if e.path = p then some e.kind else fsFind rest p

/-- Path.exists in the model. -/
def fsExists (fs : Fs) (p : UPath) : Bool := (fsFind fs p).isSome

def isFileKind : FsKind → Bool
  | .file _ _ => true
  | .dir _ => false

def isDirKind : FsKind → Bool
  | .file _ _ => false
  | .dir _ => true

/-- stat().st_size of an entry kind. -/
def kindSize : FsKind → Nat
  | .file n _ => n
  | .dir n => n

/-- Path.is_file combined with existence. -/
def isFileAt (fs : Fs) (p : UPath) : Bool :=
  match fsFind fs p with
  | some k => isFileKind k
  | none => false

/-- Path.is_dir combined with existence. -/
def isDirAt (fs : Fs) (p : UPath) : Bool :=
  match fsFind fs p with
  | some k => isDirKind k
  | none => false

/-- Create or overwrite the entry at a path (the effect of copying a
file onto that path). -/
def setFile : Fs → UPath → FsKind → Fs
  | [], p, k => [⟨p, k⟩]
  | e :: rest, p, k => if e.path = p then ⟨p, k⟩ :: rest else e :: setFile rest p k

/-- If an entry lies strictly below the base directory, return its path
relative to the base together with its kind. -/
def relOf (base : UPath) (e : FsEntry) : Option (List String × FsKind) :=
  if e.path.abs = base.abs ∧ e.path.comps.take base.comps.length = base.comps ∧
      base.comps.length < e.path.comps.length
  then some (e.path.comps.drop base.comps.length, e.kind) else none

/-- All entries strictly below a base directory, with relative paths, in
filesystem enumeration order. Every glob of the source is a filter of
this list. -/
def underRel (fs : Fs) (base : UPath) : List (List String × FsKind) :=
  fs.filterMap (relOf base)

/-- Is q equal to base or strictly below it? -/
def underOrEqB (base q : UPath) : Bool :=
  (q.abs == base.abs) && (q.comps.take base.comps.length == base.comps)

/-! ## Stable sorting (model of Python sorted / list.sort)

Insertion sort is stable, hence extensionally equal to Python sorting
with the matching boolean comparison. -/

def insertLe (le : α → α → Bool) (x : α) : List α → List α
  | [] => [x]
  | y :: ys => if le x y then x :: y :: ys else y :: insertLe le x ys

def sortBy (le : α → α → Bool) : List α → List α
  | [] => []
  | x :: xs => insertLe le x (sortBy le xs)

/-! ## GameEntry and the two detect_exe variants -/

structure GameEntry where
  appid : String
  name : String
  install_dir_name : String
  library_root : UPath
deriving DecidableEq, Repr

/-- GameEntry.game_dir: library_root/steamapps/common/install_dir_name. -/
def game_dir (g : GameEntry) : UPath :=
  ((g.library_root.child "steamapps").child "common").child g.install_dir_name

/-- The denylist of the full variant. -/
def bad_tokens : List String :=
  ["unitycrashhandler", "crashhandler", "unins", "uninstall", "setup",
   "launcherhelper", "steamerrorreporter", "vcredist", "dxsetup"]

/-- _is_probably_not_game: the lowered filename contains a denylisted
substring. -/
def is_probably_not_game (nm : String) : Bool :=
  bad_tokens.any (fun t => strContains (strLower nm) t)

/-- The filename of a relative path (its last component). -/
def relName (rel : List String) : String := rel.getLastD ""

/-- Matches of the recursive glob pattern star-dash-Shipping.exe: any
entry at depth at least one whose name ends with -Shipping.exe. -/
def shipPred (pr : List String × FsKind) : Bool :=
  strEndsWith (relName pr.1) "-Shipping.exe"

/-- Matches of the glob pattern star.exe directly in the base folder. -/
def rootExePred (pr : List String × FsKind) : Bool :=
  (pr.1.length == 1) && strEndsWith (relName pr.1) ".exe"

/-- Matches of the fixed-depth glob patterns of the subtree scan. -/
def depthExePred (k : Nat) (pr : List String × FsKind) : Bool :=
  (pr.1.length == k) && strEndsWith (relName pr.1) ".exe"

/-- The candidates of the Unreal-shipping fast path of the full
variant. -/
def shipMatches (fs : Fs) (g : GameEntry) : List (List String × FsKind) :=
  (underRel fs (game_dir g)).filter shipPred

/-- Descending-size comparison used with sorted(..., reverse=True). -/
def sizeDescLe (a b : List String × FsKind) : Bool :=
  decide (kindSize b.2 ≤ kindSize a.2)

/-- The four synthesized obvious filenames tried in the root folder, in
source order. -/
def exact_names (g : GameEntry) : List String :=
  [g.install_dir_name ++ ".exe", g.name ++ ".exe",
   stripSpaces g.name ++ ".exe", stripSpaces g.install_dir_name ++ ".exe"]

/-- Step 1 of the full variant: the synthesized exact names that exist
in the root folder, as relative paths, in source order. -/
def exactCands (fs : Fs) (g : GameEntry) : List (List String) :=
  (exact_names g).filterMap
    (fun n => if fsExists fs ((game_dir g).child n) then some [n] else none)

/-- Step 2 of the full variant: the root executables sorted by
descending size, with denylisted names dropped. -/
def rootScanCands (fs : Fs) (g : GameEntry) : List (List String) :=
  ((sortBy sizeDescLe ((underRel fs (game_dir g)).filter rootExePred)).filter
    (fun pr => !(is_probably_not_game (relName pr.1)))).map (·.1)

/-- Step 3 of the full variant, collection phase: regular executable
files between two and eight levels deep that pass the denylist, pattern
by pattern. -/
def subExes (fs : Fs) (g : GameEntry) : List (List String × FsKind) :=
  ([2, 3, 4, 5, 6, 7, 8].map
    (fun k => (underRel fs (game_dir g)).filter
      (fun pr => depthExePred k pr && isFileKind pr.2 &&
                 !(is_probably_not_game (relName pr.1))))).flatten

/-- Step 3 of the full variant, ranking phase: subtree matches whose
lowered name contains shipping.exe first (size-sorted), then all subtree
matches size-sorted. -/
def subScanCands (fs : Fs) (g : GameEntry) : List (List String) :=
  (sortBy sizeDescLe
    ((subExes fs g).filter
      (fun pr => strContains (strLower (relName pr.1)) "shipping.exe"))).map (·.1) ++
  (sortBy sizeDescLe (subExes fs g)).map (·.1)

/-- The combined candidate sequence of steps 1 to 3. -/
def candidatesAll (fs : Fs) (g : GameEntry) : List (List String) :=
  exactCands fs g ++ rootScanCands fs g ++ subScanCands fs g

/-- GameEntry.detect_exe of MacNCheese.py (the full multi-tier variant):
shipping fast path, exact names, root scan with denylist, shallow
subtree scan with denylist and shipping preference, then the first
candidate that exists and is a regular file. -/
def MacNCheese_detect_exe (fs : Fs) (g : GameEntry) : Option UPath :=
  if fsExists fs (game_dir g) then
    match sortBy sizeDescLe (shipMatches fs g) with
    | pr :: _ => some ((game_dir g).extend pr.1)
    | [] =>
      match (candidatesAll fs g).find?
          (fun rel => isFileAt fs ((game_dir g).extend rel)) with
      | some rel => some ((game_dir g).extend rel)
      | none => none
  else none

/-- GameEntry.detect_exe of MacNdCheese.py (the three-step best-effort
variant): exact install-dir name, exact display name, then the largest
root executable that is not a Unity crash handler. -/
def MacNdCheese_detect_exe (fs : Fs) (g : GameEntry) : Option UPath :=
  let gd := game_dir g
  if fsExists fs gd then
    if fsExists fs (gd.child (g.install_dir_name ++ ".exe")) then
      some (gd.child (g.install_dir_name ++ ".exe"))
    else if fsExists fs (gd.child (g.name ++ ".exe")) then
      some (gd.child (g.name ++ ".exe"))
    else
      let exes := sortBy sizeDescLe ((underRel fs gd).filter rootExePred)
      match exes.find? (fun pr => !(strContains (strLower (relName pr.1)) "unitycrashhandler")) with
      | some pr => some (gd.extend pr.1)
      | none => none
  else none

/-! ## SteamScanner.library_roots

The library-declaration file is passed in as the list of (key, value)
pairs produced by the key/value scanner on its text. -/

/-- SteamScanner.library_roots: the primary Steam directory first when it
exists; then, if the declaration file exists, each value of a path key,
translated, and appended when it exists on disk and is not already
present. -/
def libStep (fs : Fs) (pfx : UPath) (roots : List UPath) (kv : String × String) :
    List UPath :=
  if kv.1 = "path" then
    let conv := windows_path_to_unix pfx kv.2
    if fsExists fs conv ∧ ¬ conv ∈ roots then roots ++ [conv] else roots
  else roots

def library_roots (fs : Fs) (pfx steam_dir : UPath)
    (vdfPairs : List (String × String)) : List UPath :=
  let roots0 := if fsExists fs steam_dir then [steam_dir] else []
  let vdfPath := (steam_dir.child "steamapps").child "libraryfolders.vdf"
  if fsExists fs vdfPath then vdfPairs.foldl (libStep fs pfx) roots0
  else roots0

/-- The translated values of the path keys of a declaration file, in
file order. -/
def convertedPaths (pfx : UPath) (vdfPairs : List (String × String)) : List UPath :=
  vdfPairs.filterMap (fun kv =>
    if kv.1 = "path" then some (windows_path_to_unix pfx kv.2) else none)

/-! ## SteamScanner.parse_appmanifest and scan_games

A manifest file is its filename plus the (key, value) pairs the scanner
extracts from its text; a library root is a root path, whether its
steamapps folder exists, and the manifest files that folder holds in
directory enumeration order. -/

structure ManifestFile where
  fname : String
  pairs : List (String × String)
deriving DecidableEq, Repr

structure LibRoot where
  root : UPath
  steamappsPresent : Bool
  manifests : List ManifestFile
deriving DecidableEq, Repr

structure MFields where
  appid : Option String
  name : Option String
  installdir : Option String
deriving DecidableEq, Repr

/-- One step of the dictionary built by parse_appmanifest: record the
value when its key is one of the three recognised keys. -/
def mfStep (d : MFields) (kv : String × String) : MFields :=
  if kv.1 = "appid" then { d with appid := some kv.2 }
  else if kv.1 = "name" then { d with name := some kv.2 }
  else if kv.1 = "installdir" then { d with installdir := some kv.2 }
  else d

/-- The dictionary built by parse_appmanifest: walk the scanned pairs
and keep the latest value of each of the three recognised keys. -/
def collectFields (pairs : List (String × String)) : MFields :=
  pairs.foldl mfStep ⟨none, none, none⟩

/-- SteamScanner.parse_appmanifest: a GameEntry when all three required
fields are present, otherwise nothing. The owning library root (the
manifest's grandparent directory) is passed in. -/
def parse_appmanifest (root : UPath) (m : ManifestFile) : Option GameEntry :=
  match (collectFields m.pairs).appid, (collectFields m.pairs).name,
        (collectFields m.pairs).installdir with
  | some a, some n, some i => some ⟨a, n, i, root⟩
  | _, _, _ => none

/-- Do all three required keys occur among the scanned pairs? -/
def requiredPresent (pairs : List (String × String)) : Bool :=
  pairs.any (fun kv => kv.1 == "appid") &&
  pairs.any (fun kv => kv.1 == "name") &&
  pairs.any (fun kv => kv.1 == "installdir")

/-- Matches of the manifest glob pattern appmanifest_star.acf. -/
def manifestNameOk (s : String) : Bool :=
  strStartsW s "appmanifest_" && strEndsWith s ".acf"

/-- Ascending filename order (Python sorts the globbed paths). -/
def fnameLe (a b : ManifestFile) : Bool := chListLe a.fname.data b.fname.data

/-- Ascending case-insensitive display-name order (the final sort key
name.lower()). -/
def nameLowerLe (a b : GameEntry) : Bool :=
  chListLe (strLower a.name).data (strLower b.name).data

/-- SteamScanner.scan_games over resolved library roots: for each root
whose steamapps folder exists, parse its manifest files in sorted
filename order, keep the successful parses, and sort everything by
lower-cased display name. -/
def gamesOf (lib : LibRoot) : List GameEntry :=
  if lib.steamappsPresent then
    (sortBy fnameLe (lib.manifests.filter (fun m => manifestNameOk m.fname))).filterMap
      (parse_appmanifest lib.root)
  else []

def scan_games (libs : List LibRoot) : List GameEntry :=
  sortBy nameLowerLe (libs.foldl (fun acc lib => acc ++ gamesOf lib) [])

/-! ## MainWindow.patch_selected_game (the overlay placer) -/

def dxvk_dlls : List String := ["dxgi.dll", "d3d11.dll", "d3d10core.dll"]

/-- shutil.copy2 of one overlay file from the build directory into a
target directory, overwriting the target. -/
def cstep (dxvk_bin t : UPath) (f : Fs) (d : String) : Fs :=
  match fsFind f (dxvk_bin.child d) with
  | some k => setFile f (t.child d) k
  | none => f

/-- shutil.copy2 of each overlay file from the build directory into one
target directory, in overlay order. -/
def copy_dlls (dxvk_bin : UPath) (f0 : Fs) (t : UPath) : Fs :=
  dxvk_dlls.foldl (cstep dxvk_bin t) f0

/-- The chain of ancestors of a path, shortest first. -/
def ancestorsOf (p : UPath) : List UPath :=
  (List.range p.comps.length).map (fun i => ⟨p.abs, p.comps.take (i + 1)⟩)

/-- Path.mkdir(parents=True, exist_ok=True). -/
def mkdirP (fs : Fs) (p : UPath) : Fs :=
  if fsExists fs p then fs
  else (ancestorsOf p).foldl
    (fun f a => if fsExists f a then f else f ++ [⟨a, .dir 0⟩]) fs

/-- Matches of the recursive glob star-star/Binaries/Win64 that are
directories. -/
def bwPred (pr : List String × FsKind) : Bool :=
  isDirKind pr.2 && decide (2 ≤ pr.1.length) &&
  decide (pr.1.drop (pr.1.length - 2) = ["Binaries", "Win64"])

/-- Matches of the glob WindowsNoEditor/star-star/Binaries/Win64 that
are directories. -/
def bwPredWNE (pr : List String × FsKind) : Bool :=
  bwPred pr && decide (3 ≤ pr.1.length) && (pr.1.headD "" == "WindowsNoEditor")

/-- Keep the first occurrence of each element. -/
def dedupGo [DecidableEq α] (seen : List α) : List α → List α
  | [] => []
  | x :: xs => if x ∈ seen then dedupGo seen xs else x :: dedupGo (x :: seen) xs

def dedupFirst [DecidableEq α] (l : List α) : List α := dedupGo [] l

/-- The set of Binaries/Win64 directories of the install tree (the union
of the two globs of the source), as relative paths. -/
def win64_dirs (fs : Fs) (g : GameEntry) : List (List String) :=
  dedupFirst
    (((underRel fs (game_dir g)).filter bwPred).map (·.1) ++
     ((underRel fs (game_dir g)).filter bwPredWNE).map (·.1))

/-- The textual rendering of a path, used for Python path ordering. -/
def renderPath (p : UPath) : List Char :=
  (if p.abs then ['/'] else []) ++ (List.intercalate ['/'] (p.comps.map String.data))

/-- Path ordering (Python compares paths through their strings). -/
def pathLeB (a b : UPath) : Bool := chListLe (renderPath a) (renderPath b)

structure PatchResult where
  fs : Fs
  errors : List String
deriving DecidableEq, Repr

/-- MainWindow.patch_selected_game: verify every overlay source file
first and report the first missing one without touching anything;
otherwise create the install directory, copy the overlay files into it,
then into the directory of the freshly detected executable when that
directory exists and differs from the install directory, then into every
Binaries/Win64 directory of the install tree in sorted order. Reported
errors name the missing overlay file. -/
def patch_selected_game (fs : Fs) (dxvk_bin : UPath) (g : GameEntry) : PatchResult :=
  match dxvk_dlls.find? (fun d => !(fsExists fs (dxvk_bin.child d))) with
  | some d => ⟨fs, [d]⟩
  | none =>
    let gd := game_dir g
    let fs1 := mkdirP fs gd
    let fs2 := copy_dlls dxvk_bin fs1 gd
    let fs3 :=
      match MacNCheese_detect_exe fs2 g with
      | some e =>
        if fsExists fs2 e.parentDir ∧ ¬ e.parentDir = gd then
          copy_dlls dxvk_bin fs2 e.parentDir
        else fs2
      | none => fs2
    let fs4 :=
      (sortBy pathLeB ((win64_dirs fs3 g).map (fun rel => gd.extend rel))).foldl
        (copy_dlls dxvk_bin) fs3
    ⟨fs4, []⟩

/-! ## MainWindow._latest_dxvk_log_for_game (the launch-log correlator)

The candidate pool is the de-duplicated list the pattern searches
produce; a candidate is its path string, its modification time and
whether it still exists when re-checked. -/

structure LogFile where
  path : String
  mtime : Int
  onDisk : Bool
deriving DecidableEq, Repr

/-- Descending modification-time order for sorted(..., reverse=True). -/
def mtimeDescLe (a b : LogFile) : Bool := decide (b.mtime ≤ a.mtime)

/-- The selection step of _latest_dxvk_log_for_game on a non-empty
candidate pool: with a recorded launch timestamp, prefer the newest
candidate still on disk and modified at or after the timestamp minus
five seconds; otherwise the newest candidate of the whole pool. -/
def latest_dxvk_log (cands : List LogFile) (launch_ts : Option Int) : Option LogFile :=
  if cands = [] then none
  else
    let recent :=
      match launch_ts with
      | some ts => cands.filter (fun p => p.onDisk && decide (ts - 5 ≤ p.mtime))
      | none => []
    match recent with
    | r :: rs => (sortBy mtimeDescLe (r :: rs)).head?
    | [] => (sortBy mtimeDescLe cands).head?

/-! ## Concrete fixtures used by witnesses and counterexamples -/

def rootW : UPath := ⟨true, ["lib"]⟩

def gFoo : GameEntry := ⟨"1", "Foo", "FooDir", rootW⟩

def gdFoo : UPath := game_dir gFoo

/-- The spec's shipping example: a 500MB shipping binary, a 10MB file
whose name does not match the shipping suffix, and an unrelated file. -/
def fsC1 : Fs :=
  [⟨gdFoo, .dir 96⟩,
   ⟨gdFoo.child "Foo-Win64-Shipping.exe", .file 524288000 "big"⟩,
   ⟨gdFoo.child "Foo-Win64-Shipping-old.exe", .file 10485760 "old"⟩,
   ⟨gdFoo.child "readme.txt", .file 100 "r"⟩]

/-- An install tree where a directory named like a shipping binary has a
larger stat size than the only regular file matching the pattern. -/
def fsC1x : Fs :=
  [⟨gdFoo, .dir 96⟩,
   ⟨gdFoo.child "Big-Win64-Shipping.exe", .dir 4096⟩,
   ⟨(gdFoo.child "Big-Win64-Shipping.exe").child "data.pak", .file 999 "d"⟩,
   ⟨gdFoo.child "Tiny-Win64-Shipping.exe", .file 100 "t"⟩]

/-- The spec's root-scan example: setup.exe 50MB, UnityCrashHandler64.exe
20MB, Game.exe 40MB, all directly in the install directory. -/
def fsC2 : Fs :=
  [⟨gdFoo, .dir 96⟩,
   ⟨gdFoo.child "setup.exe", .file 52428800 "s"⟩,
   ⟨gdFoo.child "UnityCrashHandler64.exe", .file 20971520 "u"⟩,
   ⟨gdFoo.child "Game.exe", .file 41943040 "g"⟩]

/-- A root with a 50MB setup.exe and a 40MB Game.exe. -/
def fsC3 : Fs :=
  [⟨gdFoo, .dir 96⟩,
   ⟨gdFoo.child "setup.exe", .file 52428800 "s"⟩,
   ⟨gdFoo.child "Game.exe", .file 41943040 "g"⟩]

/-- A denylisted name carrying the shipping suffix, next to a large
ordinary executable. -/
def fsC10 : Fs :=
  [⟨gdFoo, .dir 96⟩,
   ⟨gdFoo.child "vcredist-Shipping.exe", .file 1000 "v"⟩,
   ⟨gdFoo.child "Game.exe", .file 41943040 "g"⟩]

def steamFix : UPath := ⟨true, ["prefix", "drive_c", "Program Files (x86)", "Steam"]⟩

def libDFix : UPath := ⟨true, ["prefix", "drive_d", "SteamLibrary"]⟩

def fsC4 : Fs :=
  [⟨steamFix, .dir 0⟩,
   ⟨(steamFix.child "steamapps").child "libraryfolders.vdf", .file 10 "x"⟩,
   ⟨libDFix, .dir 0⟩]

def pairsC4 : List (String × String) :=
  [("path", "C:\\Program Files (x86)\\Steam"), ("path", "D:\\SteamLibrary"),
   ("path", "D:\\SteamLibrary"), ("path", "E:\\Missing")]

def mGoodFix : ManifestFile :=
  ⟨"appmanifest_10.acf", [("appid", "10"), ("name", "Alpha"), ("installdir", "AlphaDir")]⟩

def mBadFix : ManifestFile :=
  ⟨"appmanifest_20.acf", [("appid", "20"), ("installdir", "BadDir")]⟩

def mGood2Fix : ManifestFile :=
  ⟨"appmanifest_30.acf", [("appid", "30"), ("name", "beta"), ("installdir", "BetaDir")]⟩

def binFix : UPath := ⟨true, ["dx", "bin"]⟩

/-- An overlay source directory with d3d11.dll missing. -/
def fsC7 : Fs :=
  [⟨gdFoo, .dir 96⟩,
   ⟨binFix.child "dxgi.dll", .file 11 "DXGI"⟩,
   ⟨binFix.child "d3d10core.dll", .file 13 "D3D10"⟩]

/-- A full overlay source next to an install tree with a root executable
and a nested Binaries/Win64 directory. -/
def fsC8 : Fs :=
  [⟨gdFoo, .dir 96⟩,
   ⟨gdFoo.child "Game.exe", .file 41943040 "g"⟩,
   ⟨((gdFoo.child "WindowsNoEditor").child "Binaries").child "Win64", .dir 64⟩,
   ⟨binFix.child "dxgi.dll", .file 11 "DXGI"⟩,
   ⟨binFix.child "d3d11.dll", .file 12 "D3D11"⟩,
   ⟨binFix.child "d3d10core.dll", .file 13 "D3D10"⟩]

def logA : LogFile := ⟨"FooDir_d3d11.log", 100, true⟩

def logB : LogFile := ⟨"Foo_d3d11.log", 72, true⟩

/-! ## Helper lemmas about the stable sort -/

theorem insertLe_mem {le : α → α → Bool} {x a : α} {l : List α} :
    a ∈ insertLe le x l ↔ a = x ∨ a ∈ l := by
  induction l with
  | nil => simp [insertLe]
  | cons y ys ih =>
    cases h : le x y
    · simp [insertLe, h, ih]
      tauto
    · simp [insertLe, h, ih]

theorem insertLe_perm (le : α → α → Bool) (x : α) (l : List α) :
    List.Perm (insertLe le x l) (x :: l) := by
  induction l with
  | nil => simp [insertLe]
  | cons y ys ih =>
    cases h : le x y
    · simp only [insertLe, h, Bool.false_eq_true, if_false]
      exact (ih.cons y).trans (List.Perm.swap x y ys)
    · simp [insertLe, h]

theorem sortBy_perm (le : α → α → Bool) (l : List α) :
    List.Perm (sortBy le l) l := by
  induction l with
  | nil => simp [sortBy]
  | cons x xs ih => exact (insertLe_perm le x (sortBy le xs)).trans (ih.cons x)

theorem sortBy_mem {le : α → α → Bool} {a : α} {l : List α} :
    a ∈ sortBy le l ↔ a ∈ l :=
  (sortBy_perm le l).mem_iff

theorem sortBy_eq_nil {le : α → α → Bool} {l : List α} :
    sortBy le l = [] ↔ l = [] := by
  constructor
  · intro h
    have := (sortBy_perm le l).length_eq
    rw [h] at this
    exact List.length_eq_zero.mp this.symm
  · intro h; subst h; rfl

theorem insertLe_pairwise {le : α → α → Bool}
    (htot : ∀ a b, le a b = true ∨ le b a = true)
    (htrans : ∀ a b c, le a b = true → le b c = true → le a c = true)
    {x : α} {l : List α} (hl : List.Pairwise (fun a b => le a b = true) l) :
    List.Pairwise (fun a b => le a b = true) (insertLe le x l) := by
  induction l with
  | nil => simp [insertLe]
  | cons y ys ih =>
    rcases List.pairwise_cons.mp hl with ⟨hy, hys⟩
    by_cases h : le x y = true
    · simp only [insertLe, h, if_true]
      refine List.pairwise_cons.mpr ⟨?_, hl⟩
      intro b hb
      rcases List.mem_cons.mp hb with rfl | hb
      · exact h
      · exact htrans x y b h (hy b hb)
    · simp only [insertLe, h, if_false]
      refine List.pairwise_cons.mpr ⟨?_, ih hys⟩
      intro b hb
      rcases insertLe_mem.mp hb with rfl | hb
      · rcases htot b y with h2 | h2
        · exact absurd h2 h
        · exact h2
      · exact hy b hb

theorem sortBy_pairwise {le : α → α → Bool}
    (htot : ∀ a b, le a b = true ∨ le b a = true)
    (htrans : ∀ a b c, le a b = true → le b c = true → le a c = true)
    (l : List α) :
    List.Pairwise (fun a b => le a b = true) (sortBy le l) := by
  induction l with
  | nil => simp [sortBy]
  | cons x xs ih => exact insertLe_pairwise htot htrans ih

theorem sortBy_head_le {le : α → α → Bool}
    (htot : ∀ a b, le a b = true ∨ le b a = true)
    (htrans : ∀ a b c, le a b = true → le b c = true → le a c = true)
    {l : List α} {r : α} {t : List α} (h : sortBy le l = r :: t) :
    ∀ x ∈ l, le r x = true := by
  intro x hx
  have hmem : x ∈ r :: t := by rw [← h]; exact sortBy_mem.mpr hx
  rcases List.mem_cons.mp hmem with rfl | hmem
  · rcases htot x x with h2 | h2 <;> exact h2
  · have hp := sortBy_pairwise htot htrans l
    rw [h] at hp
    exact (List.pairwise_cons.mp hp).1 x hmem

theorem sortBy_head_mem {le : α → α → Bool} {l : List α} {r : α} {t : List α}
    (h : sortBy le l = r :: t) : r ∈ l := by
  have : r ∈ sortBy le l := by rw [h]; exact List.mem_cons_self r t
  exact sortBy_mem.mp this

/-! ## Helper lemmas about strings -/

theorem strData_append (a b : String) : (a ++ b).data = a.data ++ b.data := by
  cases a; cases b; rfl

theorem chStarts_append_self (n t : List Char) : chStarts n (n ++ t) = true := by
  induction n with
  | nil => rfl
  | cons c cs ih => simp [chStarts, ih]

theorem chStarts_of_append {a b h : List Char} (hs : chStarts (a ++ b) h = true) :
    chStarts a h = true := by
  induction a generalizing h with
  | nil => rfl
  | cons c cs ih =>
    cases h with
    | nil => simp [chStarts] at hs
    | cons d ds =>
      simp only [List.cons_append, chStarts, Bool.and_eq_true] at hs ⊢
      exact ⟨hs.1, ih hs.2⟩

theorem strEndsWith_append (s t : String) : strEndsWith (s ++ t) t = true := by
  simp only [strEndsWith, strData_append, List.reverse_append]
  exact chStarts_append_self _ _

theorem strEndsWith_of_append {s : String} {t1 t2 : String}
    (h : strEndsWith s (t1 ++ t2) = true) : strEndsWith s t2 = true := by
  simp only [strEndsWith, strData_append, List.reverse_append] at h
  exact chStarts_of_append h

/-! ## Helper lemmas for path translation (claim C5) -/

theorem twoStepInd {P : List Char → Prop} (h0 : P []) (h1 : ∀ c, P [c])
    (h2 : ∀ a b rest, P rest → P (b :: rest) → P (a :: b :: rest)) :
    ∀ cs, P cs
  | [] => h0
  | [c] => h1 c
  | a :: b :: rest =>
    h2 a b rest (twoStepInd h0 h1 h2 rest) (twoStepInd h0 h1 h2 (b :: rest))

theorem collapseBS_cons (x : Char) (xs : List Char) :
    ∃ ys, collapseBS (x :: xs) = x :: ys := by
  cases xs with
  | nil => exact ⟨[], rfl⟩
  | cons b rest =>
    by_cases h : (x == '\\' && b == '\\') = true
    · have hx : x = '\\' := eq_of_beq ((Bool.and_eq_true _ _).mp h).1
      have hb : b = '\\' := eq_of_beq ((Bool.and_eq_true _ _).mp h).2
      subst hx; subst hb
      exact ⟨collapseBS rest, by simp [collapseBS]⟩
    · exact ⟨collapseBS (b :: rest), by simp [collapseBS, h]⟩

theorem nfields_cons_congr {L1 L2 : List Char} (x : Char)
    (h1 : nfields L1 = nfields L2) (h2 : isFieldHead L1 = isFieldHead L2) :
    nfields (x :: L1) = nfields (x :: L2) := by
  simp only [nfields, h1, h2]

theorem collapse_repl_fields :
    ∀ cs, nfields (replBS (collapseBS cs)) = nfields (replBS cs) ∧
      headSlash (replBS (collapseBS cs)) = headSlash (replBS cs) := by
  refine twoStepInd ⟨rfl, rfl⟩ (fun c => ⟨rfl, rfl⟩) ?_
  intro a b rest ih1 ih2
  by_cases hab : (a == '\\' && b == '\\') = true
  · rcases (Bool.and_eq_true _ _).mp hab with ⟨ha, hb⟩
    have ha' : a = '\\' := eq_of_beq ha
    have hb' : b = '\\' := eq_of_beq hb
    subst ha'; subst hb'
    have hc : collapseBS ('\\' :: '\\' :: rest) = '\\' :: collapseBS rest := by
      simp [collapseBS]
    rw [hc]
    constructor
    · show nfields ('/' :: replBS (collapseBS rest)) = nfields ('/' :: '/' :: replBS rest)
      simp only [nfields, isFieldHead]
      simpa using ih1.1
    · rfl
  · have hc : collapseBS (a :: b :: rest) = a :: collapseBS (b :: rest) := by
      simp [collapseBS, hab]
    rw [hc]
    have hhead : isFieldHead (replBS (collapseBS (b :: rest))) = isFieldHead (replBS (b :: rest)) := by
      rcases collapseBS_cons b rest with ⟨ys, hy⟩
      rw [hy]
      rfl
    constructor
    · show nfields ((if a == '\\' then '/' else a) :: replBS (collapseBS (b :: rest))) =
        nfields ((if a == '\\' then '/' else a) :: replBS (b :: rest))
      exact nfields_cons_congr _ ih2.1 hhead
    · rfl

theorem parse_collapse (cs : List Char) :
    parseChars (replBS (collapseBS cs)) = parseChars (replBS cs) := by
  rcases collapse_repl_fields cs with ⟨h1, h2⟩
  simp only [parseChars, h1, h2]

theorem driveMatch_head_alpha {c : Char} {l : List Char}
    (h : driveMatchB (c :: l) = true) : c.isAlpha = true := by
  cases l with
  | nil => simp [driveMatchB] at h
  | cons c1 l1 =>
    cases l1 with
    | nil => simp [driveMatchB] at h
    | cons c2 l2 =>
      simp only [driveMatchB, Bool.and_eq_true] at h
      exact h.1.1

theorem driveMatch_second {c0 c1 : Char} {l : List Char}
    (h : driveMatchB (c0 :: c1 :: l) = true) : c1 = ':' := by
  cases l with
  | nil => simp [driveMatchB] at h
  | cons c2 l2 =>
    simp only [driveMatchB, Bool.and_eq_true] at h
    exact eq_of_beq h.1.2

theorem driveMatchB_of_collapse :
    ∀ cs, driveMatchB (collapseBS cs) = true → driveMatchB cs = true := by
  intro cs
  match cs with
  | [] => intro h; exact h
  | [c] => intro h; exact h
  | a :: b :: rest =>
    intro h
    by_cases hab : (a == '\\' && b == '\\') = true
    · have ha : a = '\\' := eq_of_beq ((Bool.and_eq_true _ _).mp hab).1
      have hb : b = '\\' := eq_of_beq ((Bool.and_eq_true _ _).mp hab).2
      subst ha; subst hb
      have hc : collapseBS ('\\' :: '\\' :: rest) = '\\' :: collapseBS rest := by
        simp [collapseBS]
      rw [hc] at h
      have := driveMatch_head_alpha h
      simp at this
    · have hc : collapseBS (a :: b :: rest) = a :: collapseBS (b :: rest) := by
        simp [collapseBS, hab]
      rw [hc] at h
      cases rest with
      | nil =>
        simp [collapseBS, driveMatchB] at h
      | cons c rest2 =>
        by_cases hbc : (b == '\\' && c == '\\') = true
        · have hb : b = '\\' := eq_of_beq ((Bool.and_eq_true _ _).mp hbc).1
          have hc2 : c = '\\' := eq_of_beq ((Bool.and_eq_true _ _).mp hbc).2
          subst hb; subst hc2
          have hcc : collapseBS ('\\' :: '\\' :: rest2) = '\\' :: collapseBS rest2 := by
            simp [collapseBS]
          rw [hcc] at h
          have := driveMatch_second h
          simp at this
        · have hcc : collapseBS (b :: c :: rest2) = b :: collapseBS (c :: rest2) := by
            simp [collapseBS, hbc]
          rw [hcc] at h
          rcases collapseBS_cons c rest2 with ⟨ws, hw⟩
          rw [hw] at h
          simp only [driveMatchB, Bool.and_eq_true] at h ⊢
          exact h

/-! ## Helper lemmas about the filesystem model -/

theorem find?_congr {p q : α → Bool} {l : List α} (h : ∀ x ∈ l, p x = q x) :
    l.find? p = l.find? q := by
  induction l with
  | nil => rfl
  | cons a t ih =>
    rcases List.forall_mem_cons.mp h with ⟨ha, ht⟩
    by_cases hp : p a = true
    · rw [List.find?_cons_of_pos _ hp, List.find?_cons_of_pos _ (ha ▸ hp)]
    · rw [List.find?_cons_of_neg _ hp, List.find?_cons_of_neg _ (ha ▸ hp), ih ht]

theorem find?_all_eq {p : α → Bool} {l1 l2 : List α} {a : α}
    (h : ∀ x ∈ l1, x = a) (hp : p a = true) :
    (l1 ++ a :: l2).find? p = some a := by
  induction l1 with
  | nil => simp [List.find?_cons_of_pos _ hp]
  | cons x t ih =>
    have hx : x = a := h x (List.mem_cons_self x t)
    subst hx
    simp only [List.cons_append, List.find?_cons_of_pos _ hp]

theorem fsFind_setFile (fs : Fs) (p q : UPath) (k : FsKind) :
    fsFind (setFile fs p k) q = if q = p then some k else fsFind fs q := by
  induction fs with
  | nil =>
    simp only [setFile, fsFind]
    by_cases h : p = q
    · rw [if_pos h, if_pos h.symm]
    · rw [if_neg h, if_neg (fun hh => h hh.symm)]
  | cons e rest ih =>
    by_cases he : e.path = p
    · simp only [setFile, if_pos he, fsFind]
      by_cases h : p = q
      · rw [if_pos h, if_pos h.symm]
      · rw [if_neg h, if_neg (fun hh => h hh.symm)]
        show fsFind rest q = if e.path = q then some e.kind else fsFind rest q
        rw [if_neg (fun hh : e.path = q => h (he ▸ hh))]
    · simp only [setFile, if_neg he, fsFind, ih]
      by_cases h2 : e.path = q
      · rw [if_pos h2, if_neg (fun hh : q = p => he (h2.trans hh)), if_pos h2]
      · rw [if_neg h2]
        by_cases h3 : q = p
        · rw [if_pos h3, if_pos h3]
        · rw [if_neg h3, if_neg h3, if_neg h2]

theorem fsExists_setFile (fs : Fs) (p q : UPath) (k : FsKind) :
    fsExists (setFile fs p k) q = if q = p then true else fsExists fs q := by
  unfold fsExists
  rw [fsFind_setFile]
  by_cases h : q = p <;> simp [h]

theorem fsExists_setFile_mono {fs : Fs} {q : UPath} (p : UPath) (k : FsKind)
    (h : fsExists fs q = true) : fsExists (setFile fs p k) q = true := by
  rw [fsExists_setFile]
  by_cases hq : q = p <;> simp [hq, h]

theorem snoc_inj {l1 l2 : List α} {a b : α} (h : l1 ++ [a] = l2 ++ [b]) :
    l1 = l2 ∧ a = b := by
  have hr : a :: l1.reverse = b :: l2.reverse := by
    simpa [List.reverse_append] using congrArg List.reverse h
  injection hr with hab hl
  exact ⟨List.reverse_injective hl, hab⟩

theorem UPath.child_inj {p q : UPath} {a b : String} :
    p.child a = q.child b ↔ p = q ∧ a = b := by
  constructor
  · intro h
    have habs := congrArg (fun r : UPath => r.abs) h
    have hcomps := congrArg (fun r : UPath => r.comps) h
    simp only [UPath.child, UPath.extend] at habs hcomps
    rcases snoc_inj hcomps with ⟨h1, h2⟩
    refine ⟨?_, h2⟩
    cases p; cases q
    simp_all
  · rintro ⟨rfl, rfl⟩; rfl

theorem UPath.extend_right_inj {base : UPath} {r1 r2 : List String} :
    base.extend r1 = base.extend r2 ↔ r1 = r2 := by
  constructor
  · intro h
    have := congrArg (fun r : UPath => r.comps) h
    simpa [UPath.extend, List.append_right_inj] using this
  · rintro rfl; rfl

theorem UPath.extend_ne_self {base : UPath} {rel : List String} (h : rel ≠ []) :
    base.extend rel ≠ base := by
  intro he
  have hlen := congrArg (fun r : UPath => r.comps.length) he
  simp only [UPath.extend, List.length_append] at hlen
  have : rel.length = 0 := by omega
  exact h (List.length_eq_zero.mp this)

/-- The membership condition of relOf, which depends only on the path. -/
abbrev underCond (base p : UPath) : Prop :=
  p.abs = base.abs ∧ p.comps.take base.comps.length = base.comps ∧
    base.comps.length < p.comps.length

theorem relOf_eq_if (base : UPath) (e : FsEntry) :
    relOf base e = if underCond base e.path
      then some (e.path.comps.drop base.comps.length, e.kind) else none := rfl

theorem underCond_extend {base : UPath} {rel : List String} (h : rel ≠ []) :
    underCond base (base.extend rel) := by
  refine ⟨rfl, ?_, ?_⟩
  · exact List.take_left base.comps rel
  · simp only [UPath.extend, List.length_append]
    have : 0 < rel.length := List.length_pos.mpr h
    omega

theorem relOf_extend {base : UPath} {rel : List String} (h : rel ≠ []) (k : FsKind) :
    relOf base ⟨base.extend rel, k⟩ = some (rel, k) := by
  rw [relOf_eq_if]
  simp only
  rw [if_pos (underCond_extend h)]
  simp only [UPath.extend, List.drop_left]

theorem relOf_some {base : UPath} {e : FsEntry} {rel : List String} {k : FsKind}
    (h : relOf base e = some (rel, k)) :
    e.path = base.extend rel ∧ k = e.kind ∧ rel ≠ [] := by
  rw [relOf_eq_if] at h
  by_cases hc : underCond base e.path
  · rw [if_pos hc] at h
    injection h with h2
    have hrel : e.path.comps.drop base.comps.length = rel := congrArg Prod.fst h2
    have hk : e.kind = k := congrArg Prod.snd h2
    rcases hc with ⟨habs, htake, hlen⟩
    have hsplit : e.path.comps = base.comps ++ rel := by
      have h3 := (List.take_append_drop base.comps.length e.path.comps).symm
      rw [htake, hrel] at h3
      exact h3
    refine ⟨?_, hk.symm, ?_⟩
    · have : e.path = ⟨base.abs, base.comps ++ rel⟩ := by
        cases hp : e.path with
        | mk ab cm =>
          rw [hp] at habs hsplit
          simp at habs hsplit
          simp [habs, hsplit]
      exact this
    · intro hne
      rw [hne] at hrel
      have := congrArg List.length hrel
      simp [List.length_drop] at this
      omega
  · rw [if_neg hc] at h
    exact absurd h (by simp)

theorem fsFind_extend (fs : Fs) {base : UPath} {rel : List String} (h : rel ≠ []) :
    fsFind fs (base.extend rel) =
      ((underRel fs base).find? (fun pr => pr.1 == rel)).map (·.2) := by
  induction fs with
  | nil => rfl
  | cons e rest ih =>
    by_cases he : e.path = base.extend rel
    · have he2 : e = ⟨base.extend rel, e.kind⟩ := by
        cases e; simp_all
      have hrel : relOf base e = some (rel, e.kind) := by
        rw [he2]
        exact relOf_extend h e.kind
      simp only [fsFind, if_pos he, underRel, List.filterMap_cons, hrel]
      rw [List.find?_cons_of_pos _ (by simp)]
      rfl
    · simp only [fsFind, if_neg he, underRel, List.filterMap_cons]
      cases hr : relOf base e with
      | none => exact ih
      | some pr =>
        rcases relOf_some hr with ⟨hp, hk, hne⟩
        have hprne : pr.1 ≠ rel := by
          intro heq
          apply he
          rw [hp, heq]
        rw [List.find?_cons_of_neg _ (by simpa using hprne)]
        exact ih

theorem fsExists_extend (fs : Fs) {base : UPath} {rel : List String} (h : rel ≠ []) :
    fsExists fs (base.extend rel) =
      (underRel fs base).any (fun pr => pr.1 == rel) := by
  unfold fsExists
  rw [fsFind_extend fs h]
  cases hf : (underRel fs base).find? (fun pr => pr.1 == rel) with
  | none =>
    simp only [Option.map_none', Option.isSome_none]
    symm
    rw [List.any_eq_false]
    intro x hx
    have := List.find?_eq_none.mp hf x hx
    simpa using this
  | some pr =>
    simp only [Option.map_some', Option.isSome_some]
    symm
    rw [List.any_eq_true]
    have hp := List.find?_some hf
    exact ⟨pr, List.mem_of_find?_eq_some hf, by simpa using hp⟩

/-! ## Claim C5: path translation -/

/-- C5: windows_path_to_unix maps the drive-rooted value C:\Games\Foo
under sandbox root /prefix to /prefix/drive_c/Games/Foo, and maps any
value that is not drive-letter rooted to itself with backslashes
replaced by forward slashes, compared as pathlib paths. -/
theorem claim_C5 :
    windows_path_to_unix (parsePosix "/prefix") "C:\\Games\\Foo" =
      parsePosix "/prefix/drive_c/Games/Foo" ∧
    ∀ (pfx : UPath) (v : String), driveMatchB v.data = false →
      windows_path_to_unix pfx v = parseChars (replBS v.data) := by
  constructor
  · decide
  · intro pfx v hv
    have hcol : driveMatchB (collapseBS v.data) = false := by
      cases hc : driveMatchB (collapseBS v.data)
      · rfl
      · rw [driveMatchB_of_collapse v.data hc] at hv
        exact absurd hv (by simp)
    simp only [windows_path_to_unix, hcol, Bool.false_eq_true, if_false]
    exact parse_collapse v.data

/-- Witness for C5: the spec's non-drive-rooted value round-trips with
only backslash normalisation. -/
theorem claim_C5_witness :
    driveMatchB "/already/unix/path".data = false ∧
    windows_path_to_unix (parsePosix "/prefix") "/already/unix/path" =
      parseChars (replBS "/already/unix/path".data) :=
  ⟨by decide, claim_C5.2 (parsePosix "/prefix") "/already/unix/path" (by decide)⟩

/-! ## Claim C3: the two detect_exe variants differ -/

/-- C3: the two executable-detection variants are not extensionally
equal: on a root directory holding setup.exe (50MB) and Game.exe (40MB),
the full multi-tier variant of MacNCheese.py returns Game.exe while the
three-step variant of MacNdCheese.py returns setup.exe. -/
theorem claim_C3 :
    MacNCheese_detect_exe fsC3 gFoo = some (gdFoo.child "Game.exe") ∧
    MacNdCheese_detect_exe fsC3 gFoo = some (gdFoo.child "setup.exe") ∧
    MacNCheese_detect_exe fsC3 gFoo ≠ MacNdCheese_detect_exe fsC3 gFoo := by
  refine ⟨by decide, by decide, by decide⟩

/-! ## Claim C9: launch-log correlation -/

theorem mtimeDescLe_total (a b : LogFile) :
    mtimeDescLe a b = true ∨ mtimeDescLe b a = true := by
  simp only [mtimeDescLe, decide_eq_true_eq]
  omega

theorem mtimeDescLe_trans (a b c : LogFile)
    (h1 : mtimeDescLe a b = true) (h2 : mtimeDescLe b c = true) :
    mtimeDescLe a c = true := by
  simp only [mtimeDescLe, decide_eq_true_eq] at h1 h2 ⊢
  omega

theorem sortMtime_head (l : List LogFile) (hne : l ≠ []) :
    ∃ r t, sortBy mtimeDescLe l = r :: t ∧ r ∈ l ∧ ∀ c ∈ l, c.mtime ≤ r.mtime := by
  cases hs : sortBy mtimeDescLe l with
  | nil => exact absurd (sortBy_eq_nil.mp hs) hne
  | cons r t =>
    refine ⟨r, t, rfl, sortBy_head_mem hs, ?_⟩
    intro c hc
    have := sortBy_head_le mtimeDescLe_total mtimeDescLe_trans hs c hc
    simpa [mtimeDescLe] using this

/-- C9: on a non-empty candidate pool, when a launch timestamp is
recorded and some still-existing candidate was modified at or after the
timestamp minus five seconds, latest_dxvk_log returns a
most-recently-modified such candidate; otherwise (no timestamp, or no
candidate inside the window) it returns a most-recently-modified
candidate of the full pool. -/
theorem claim_C9 :
    ∀ (cands : List LogFile) (lts : Option Int), cands ≠ [] →
      (∀ T, lts = some T →
        ∀ c0 ∈ cands, c0.onDisk = true → T - 5 ≤ c0.mtime →
          ∃ r, latest_dxvk_log cands lts = some r ∧ r ∈ cands ∧ r.onDisk = true ∧
            T - 5 ≤ r.mtime ∧
            ∀ c ∈ cands, c.onDisk = true → T - 5 ≤ c.mtime → c.mtime ≤ r.mtime) ∧
      ((lts = none ∨ ∃ T, lts = some T ∧
          cands.filter (fun p => p.onDisk && decide (T - 5 ≤ p.mtime)) = []) →
        ∃ r, latest_dxvk_log cands lts = some r ∧ r ∈ cands ∧
          ∀ c ∈ cands, c.mtime ≤ r.mtime) := by
  intro cands lts hne
  constructor
  · rintro T rfl c0 hc0 hdisk hmt
    have hc0f : c0 ∈ cands.filter (fun p => p.onDisk && decide (T - 5 ≤ p.mtime)) := by
      rw [List.mem_filter]
      exact ⟨hc0, by simp [hdisk, hmt]⟩
    cases hR : cands.filter (fun p => p.onDisk && decide (T - 5 ≤ p.mtime)) with
    | nil => rw [hR] at hc0f; simp at hc0f
    | cons r0 R2 =>
      have hRne : (r0 :: R2 : List LogFile) ≠ [] := by simp
      rcases sortMtime_head (r0 :: R2) hRne with ⟨r, t, hs, hrm, hmax⟩
      refine ⟨r, ?_, ?_, ?_, ?_, ?_⟩
      · unfold latest_dxvk_log
        rw [if_neg hne]
        simp only [hR, hs]
        rfl
      · have : r ∈ cands.filter (fun p => p.onDisk && decide (T - 5 ≤ p.mtime)) := by
          rw [hR]; exact hrm
        exact (List.mem_filter.mp this).1
      · have : r ∈ cands.filter (fun p => p.onDisk && decide (T - 5 ≤ p.mtime)) := by
          rw [hR]; exact hrm
        have := (List.mem_filter.mp this).2
        simp only [Bool.and_eq_true, decide_eq_true_eq] at this
        exact this.1
      · have : r ∈ cands.filter (fun p => p.onDisk && decide (T - 5 ≤ p.mtime)) := by
          rw [hR]; exact hrm
        have := (List.mem_filter.mp this).2
        simp only [Bool.and_eq_true, decide_eq_true_eq] at this
        exact this.2
      · intro c hc hcd hcm
        apply hmax
        rw [← hR]
        rw [List.mem_filter]
        exact ⟨hc, by simp [hcd, hcm]⟩
  · intro hfall
    rcases sortMtime_head cands hne with ⟨r, t, hs, hrm, hmax⟩
    refine ⟨r, ?_, hrm, hmax⟩
    rcases hfall with rfl | ⟨T, rfl, hemp⟩
    · unfold latest_dxvk_log
      rw [if_neg hne]
      simp only [hs]
      rfl
    · unfold latest_dxvk_log
      rw [if_neg hne]
      simp only [hemp, hs]
      rfl

/-- Witness for C9: the spec's example, a pool modified at T-2 and T-30
with T = 102, yields the T-2 file; the same pool with no timestamp
yields its newest member. -/
theorem claim_C9_witness :
    ([logA, logB] : List LogFile) ≠ [] ∧
    (∃ r, latest_dxvk_log [logA, logB] (some 102) = some r ∧
      r ∈ [logA, logB] ∧ r.onDisk = true ∧ (102 : Int) - 5 ≤ r.mtime ∧
      ∀ c ∈ [logA, logB], c.onDisk = true → (102 : Int) - 5 ≤ c.mtime →
        c.mtime ≤ r.mtime) ∧
    (∃ r, latest_dxvk_log [logA, logB] none = some r ∧ r ∈ [logA, logB] ∧
      ∀ c ∈ [logA, logB], c.mtime ≤ r.mtime) :=
  ⟨by decide,
   (claim_C9 [logA, logB] (some 102) (by decide)).1 102 rfl logA (by decide)
     (by decide) (by decide),
   (claim_C9 [logA, logB] none (by decide)).2 (Or.inl rfl)⟩

/-! ## Claim C4: library-root resolution -/

theorem libStep_skip {fs : Fs} {pfx : UPath} {roots : List UPath}
    {kv : String × String} (h : kv.1 ≠ "path") :
    libStep fs pfx roots kv = roots := by
  unfold libStep
  rw [if_neg h]

theorem libStep_add {fs : Fs} {pfx : UPath} {roots : List UPath}
    {kv : String × String} (h : kv.1 = "path")
    (h2 : fsExists fs (windows_path_to_unix pfx kv.2) ∧
      ¬ windows_path_to_unix pfx kv.2 ∈ roots) :
    libStep fs pfx roots kv = roots ++ [windows_path_to_unix pfx kv.2] := by
  unfold libStep
  rw [if_pos h]
  exact if_pos h2

theorem libStep_dup {fs : Fs} {pfx : UPath} {roots : List UPath}
    {kv : String × String} (h : kv.1 = "path")
    (h2 : ¬ (fsExists fs (windows_path_to_unix pfx kv.2) ∧
      ¬ windows_path_to_unix pfx kv.2 ∈ roots)) :
    libStep fs pfx roots kv = roots := by
  unfold libStep
  rw [if_pos h]
  exact if_neg h2

theorem library_fold_spec (fs : Fs) (pfx : UPath) :
    ∀ (pairs : List (String × String)) (roots : List UPath),
      ∃ rest,
        pairs.foldl (libStep fs pfx) roots = roots ++ rest ∧
        List.Sublist rest (convertedPaths pfx pairs) ∧
        (∀ p ∈ rest, fsExists fs p = true) ∧
        (roots.Nodup → (roots ++ rest).Nodup) := by
  intro pairs
  induction pairs with
  | nil =>
    intro roots
    exact ⟨[], by simp, by simp, by simp, by simp⟩
  | cons kv ps ih =>
    intro roots
    by_cases hk : kv.1 = "path"
    · by_cases hadd : fsExists fs (windows_path_to_unix pfx kv.2) ∧
        ¬ windows_path_to_unix pfx kv.2 ∈ roots
      · rcases ih (roots ++ [windows_path_to_unix pfx kv.2]) with ⟨rest2, hf, hsub, hex, hnd⟩
        refine ⟨windows_path_to_unix pfx kv.2 :: rest2, ?_, ?_, ?_, ?_⟩
        · rw [List.foldl_cons, libStep_add hk hadd, hf, List.append_assoc]
          rfl
        · have hconv : convertedPaths pfx (kv :: ps) =
            windows_path_to_unix pfx kv.2 :: convertedPaths pfx ps := by
            simp [convertedPaths, hk]
          rw [hconv]
          exact List.Sublist.cons₂ _ hsub
        · intro p hp
          rcases List.mem_cons.mp hp with rfl | hp
          · exact hadd.1
          · exact hex p hp
        · intro hnod
          have h1 : (roots ++ [windows_path_to_unix pfx kv.2]).Nodup := by
            rw [List.nodup_append]
            exact ⟨hnod, List.nodup_singleton _, by simpa using hadd.2⟩
          have := hnd h1
          rwa [List.append_assoc] at this
      · rcases ih roots with ⟨rest2, hf, hsub, hex, hnd⟩
        refine ⟨rest2, ?_, ?_, hex, hnd⟩
        · rw [List.foldl_cons, libStep_dup hk hadd, hf]
        · have hconv : convertedPaths pfx (kv :: ps) =
            windows_path_to_unix pfx kv.2 :: convertedPaths pfx ps := by
            simp [convertedPaths, hk]
          rw [hconv]
          exact List.Sublist.cons _ hsub
    · rcases ih roots with ⟨rest2, hf, hsub, hex, hnd⟩
      refine ⟨rest2, ?_, ?_, hex, hnd⟩
      · rw [List.foldl_cons, libStep_skip hk, hf]
      · have hconv : convertedPaths pfx (kv :: ps) = convertedPaths pfx ps := by
          simp [convertedPaths, hk]
        rw [hconv]
        exact hsub

/-- C4: library_roots only returns paths that exist, never returns the
same resolved path twice, puts the primary root first when it exists,
and appends the remaining roots as a subsequence of the translated path
values in first-seen file order. -/
theorem claim_C4 (fs : Fs) (pfx steam_dir : UPath) (pairs : List (String × String)) :
    (∀ p ∈ library_roots fs pfx steam_dir pairs, fsExists fs p = true) ∧
    (library_roots fs pfx steam_dir pairs).Nodup ∧
    (fsExists fs steam_dir = true →
      (library_roots fs pfx steam_dir pairs).head? = some steam_dir) ∧
    List.Sublist
      ((library_roots fs pfx steam_dir pairs).drop
        (if fsExists fs steam_dir then 1 else 0))
      (convertedPaths pfx pairs) := by
  unfold library_roots
  by_cases hvdf : fsExists fs ((steam_dir.child "steamapps").child "libraryfolders.vdf") = true
  · simp only [hvdf, if_true]
    cases hsd : fsExists fs steam_dir with
    | true =>
      simp only [if_true]
      rcases library_fold_spec fs pfx pairs [steam_dir] with ⟨rest, hf, hsub, hex, hnd⟩
      rw [hf]
      refine ⟨?_, ?_, ?_, ?_⟩
      · intro p hp
        rcases List.mem_append.mp hp with hp | hp
        · rcases List.mem_singleton.mp hp with rfl
          exact hsd
        · exact hex p hp
      · exact hnd (List.nodup_singleton _)
      · intro _
        rfl
      · simpa using hsub
    | false =>
      simp only [Bool.false_eq_true, if_false]
      rcases library_fold_spec fs pfx pairs [] with ⟨rest, hf, hsub, hex, hnd⟩
      rw [hf]
      refine ⟨?_, ?_, ?_, ?_⟩
      · intro p hp
        exact hex p (by simpa using hp)
      · simpa using hnd List.nodup_nil
      · intro hc
        exact hc.elim
      · simpa using hsub
  · rw [if_neg hvdf]
    cases hsd : fsExists fs steam_dir with
    | true =>
      simp only [if_true]
      refine ⟨?_, List.nodup_singleton _, fun _ => rfl, by simp⟩
      intro p hp
      rcases List.mem_singleton.mp hp with rfl
      exact hsd
    | false =>
      simp only [Bool.false_eq_true, if_false]
      refine ⟨by simp, List.nodup_nil, ?_, by simp⟩
      intro hc
      exact hc.elim

/-- Witness for C4 on a concrete declaration file with a duplicate and a
missing library: the resolved list is the existing primary followed by
the one existing translated root. -/
theorem claim_C4_witness :
    fsExists fsC4 steamFix = true ∧
    (library_roots fsC4 ⟨true, ["prefix"]⟩ steamFix pairsC4).head? = some steamFix ∧
    (library_roots fsC4 ⟨true, ["prefix"]⟩ steamFix pairsC4).Nodup ∧
    (∀ p ∈ library_roots fsC4 ⟨true, ["prefix"]⟩ steamFix pairsC4,
      fsExists fsC4 p = true) :=
  ⟨by decide,
   (claim_C4 fsC4 ⟨true, ["prefix"]⟩ steamFix pairsC4).2.2.1 (by decide),
   (claim_C4 fsC4 ⟨true, ["prefix"]⟩ steamFix pairsC4).2.1,
   (claim_C4 fsC4 ⟨true, ["prefix"]⟩ steamFix pairsC4).1⟩

/-! ## Claim C6: malformed manifests are skipped without aborting -/

theorem mfStep_appid_any :
    ∀ (pairs : List (String × String)) (d : MFields),
      ((pairs.foldl mfStep d).appid).isSome = true →
      d.appid.isSome = true ∨ pairs.any (fun kv => kv.1 == "appid") = true := by
  intro pairs
  induction pairs with
  | nil => intro d h; exact Or.inl h
  | cons kv ps ih =>
    intro d h
    rw [List.foldl_cons] at h
    rcases ih (mfStep d kv) h with h2 | h2
    · by_cases hk : kv.1 = "appid"
      · right
        simp [hk]
      · left
        unfold mfStep at h2
        rw [if_neg hk] at h2
        by_cases hk2 : kv.1 = "name"
        · rwa [if_pos hk2] at h2
        · rw [if_neg hk2] at h2
          by_cases hk3 : kv.1 = "installdir"
          · rwa [if_pos hk3] at h2
          · rwa [if_neg hk3] at h2
    · right
      simp only [List.any_cons, Bool.or_eq_true]
      exact Or.inr h2

theorem mfStep_name_any :
    ∀ (pairs : List (String × String)) (d : MFields),
      ((pairs.foldl mfStep d).name).isSome = true →
      d.name.isSome = true ∨ pairs.any (fun kv => kv.1 == "name") = true := by
  intro pairs
  induction pairs with
  | nil => intro d h; exact Or.inl h
  | cons kv ps ih =>
    intro d h
    rw [List.foldl_cons] at h
    rcases ih (mfStep d kv) h with h2 | h2
    · by_cases hk2 : kv.1 = "name"
      · right
        simp [hk2]
      · left
        unfold mfStep at h2
        by_cases hk : kv.1 = "appid"
        · rwa [if_pos hk] at h2
        · rw [if_neg hk, if_neg hk2] at h2
          by_cases hk3 : kv.1 = "installdir"
          · rwa [if_pos hk3] at h2
          · rwa [if_neg hk3] at h2
    · right
      simp only [List.any_cons, Bool.or_eq_true]
      exact Or.inr h2

theorem mfStep_installdir_any :
    ∀ (pairs : List (String × String)) (d : MFields),
      ((pairs.foldl mfStep d).installdir).isSome = true →
      d.installdir.isSome = true ∨ pairs.any (fun kv => kv.1 == "installdir") = true := by
  intro pairs
  induction pairs with
  | nil => intro d h; exact Or.inl h
  | cons kv ps ih =>
    intro d h
    rw [List.foldl_cons] at h
    rcases ih (mfStep d kv) h with h2 | h2
    · by_cases hk3 : kv.1 = "installdir"
      · right
        simp [hk3]
      · left
        unfold mfStep at h2
        by_cases hk : kv.1 = "appid"
        · rwa [if_pos hk] at h2
        · rw [if_neg hk] at h2
          by_cases hk2 : kv.1 = "name"
          · rwa [if_pos hk2] at h2
          · rwa [if_neg hk2, if_neg hk3] at h2
    · right
      simp only [List.any_cons, Bool.or_eq_true]
      exact Or.inr h2

theorem parse_appmanifest_none {bad : ManifestFile}
    (h : requiredPresent bad.pairs = false) (root : UPath) :
    parse_appmanifest root bad = none := by
  have hone : (collectFields bad.pairs).appid = none ∨
      (collectFields bad.pairs).name = none ∨
      (collectFields bad.pairs).installdir = none := by
    cases ha : bad.pairs.any (fun kv => kv.1 == "appid") with
    | false =>
      left
      cases hv : (collectFields bad.pairs).appid with
      | none => rfl
      | some v =>
        have := mfStep_appid_any bad.pairs ⟨none, none, none⟩
          (by unfold collectFields at hv; simp [hv])
        simp [ha] at this
    | true =>
      cases hb : bad.pairs.any (fun kv => kv.1 == "name") with
      | false =>
        right; left
        cases hv : (collectFields bad.pairs).name with
        | none => rfl
        | some v =>
          have := mfStep_name_any bad.pairs ⟨none, none, none⟩
            (by unfold collectFields at hv; simp [hv])
          simp [hb] at this
      | true =>
        cases hc : bad.pairs.any (fun kv => kv.1 == "installdir") with
        | false =>
          right; right
          cases hv : (collectFields bad.pairs).installdir with
          | none => rfl
          | some v =>
            have := mfStep_installdir_any bad.pairs ⟨none, none, none⟩
              (by unfold collectFields at hv; simp [hv])
            simp [hc] at this
        | true =>
          unfold requiredPresent at h
          rw [ha, hb, hc] at h
          simp at h
    
  unfold parse_appmanifest
  cases hA : (collectFields bad.pairs).appid <;>
    cases hN : (collectFields bad.pairs).name <;>
    cases hI : (collectFields bad.pairs).installdir <;>
    try rfl
  rcases hone with h1 | h1 | h1 <;> simp_all

theorem scan_fold_flatten :
    ∀ (libs : List LibRoot) (acc : List GameEntry),
      libs.foldl (fun acc lib => acc ++ gamesOf lib) acc =
        acc ++ (libs.map gamesOf).flatten := by
  intro libs
  induction libs with
  | nil => intro acc; simp
  | cons l ls ih =>
    intro acc
    rw [List.foldl_cons, ih, List.map_cons, List.flatten_cons, List.append_assoc]

theorem gamesOf_perm {root : UPath} {sp : Bool} {ms1 ms2 : List ManifestFile}
    {bad : ManifestFile} (hb : ∀ r, parse_appmanifest r bad = none) :
    List.Perm (gamesOf ⟨root, sp, ms1 ++ bad :: ms2⟩) (gamesOf ⟨root, sp, ms1 ++ ms2⟩) := by
  unfold gamesOf
  cases sp with
  | false => simp
  | true =>
    simp only
    rw [List.filter_append, List.filter_append, List.filter_cons]
    cases hq : manifestNameOk bad.fname with
    | false => simp
    | true =>
      simp only [if_pos]
      set A := List.filter (fun m => manifestNameOk m.fname) ms1 with hA
      set B := List.filter (fun m => manifestNameOk m.fname) ms2 with hB
      have h1 : List.Perm
          ((sortBy fnameLe (A ++ bad :: B)).filterMap (parse_appmanifest root))
          ((A ++ bad :: B).filterMap (parse_appmanifest root)) :=
        (sortBy_perm fnameLe (A ++ bad :: B)).filterMap _
      have h2 : (A ++ bad :: B).filterMap (parse_appmanifest root) =
          (A ++ B).filterMap (parse_appmanifest root) := by
        rw [List.filterMap_append, List.filterMap_append, List.filterMap_cons, hb root]
      have h3 : List.Perm
          ((A ++ B).filterMap (parse_appmanifest root))
          ((sortBy fnameLe (A ++ B)).filterMap (parse_appmanifest root)) :=
        ((sortBy_perm fnameLe (A ++ B)).filterMap _).symm
      exact (h1.trans (h2 ▸ List.Perm.refl _)).trans h3

/-- C6: a manifest lacking one of the three required fields parses to
nothing, and inserting it anywhere in a library's manifest list leaves
the scanned catalog unchanged up to permutation: every sibling manifest
is still parsed and included, and the scan never aborts. -/
theorem claim_C6 (pre post : List LibRoot) (root : UPath) (sp : Bool)
    (ms1 ms2 : List ManifestFile) (bad : ManifestFile)
    (h : requiredPresent bad.pairs = false) :
    (∀ r, parse_appmanifest r bad = none) ∧
    List.Perm (scan_games (pre ++ ⟨root, sp, ms1 ++ bad :: ms2⟩ :: post))
              (scan_games (pre ++ ⟨root, sp, ms1 ++ ms2⟩ :: post)) := by
  have hb : ∀ r, parse_appmanifest r bad = none :=
    fun r => parse_appmanifest_none h r
  refine ⟨hb, ?_⟩
  unfold scan_games
  have hflat : ∀ libs : List LibRoot,
      libs.foldl (fun acc lib => acc ++ gamesOf lib) [] = (libs.map gamesOf).flatten :=
    fun libs => by simpa using scan_fold_flatten libs []
  rw [hflat, hflat]
  have hmid : List.Perm
      ((pre ++ (⟨root, sp, ms1 ++ bad :: ms2⟩ : LibRoot) :: post).map gamesOf).flatten
      ((pre ++ (⟨root, sp, ms1 ++ ms2⟩ : LibRoot) :: post).map gamesOf).flatten := by
    rw [List.map_append, List.map_append, List.map_cons, List.map_cons,
      List.flatten_append, List.flatten_append, List.flatten_cons, List.flatten_cons]
    exact List.Perm.append_left _
      (List.Perm.append_right _ (gamesOf_perm hb))
  exact ((sortBy_perm _ _).trans hmid).trans (sortBy_perm _ _).symm

/-- Witness for C6: a manifest without a name field disappears from the
catalog while its two well-formed siblings survive. -/
theorem claim_C6_witness :
    requiredPresent mBadFix.pairs = false ∧
    parse_appmanifest steamFix mBadFix = none ∧
    List.Perm (scan_games [⟨steamFix, true, [mGood2Fix] ++ mBadFix :: [mGoodFix]⟩])
              (scan_games [⟨steamFix, true, [mGood2Fix] ++ [mGoodFix]⟩]) :=
  ⟨by decide,
   (claim_C6 [] [] steamFix true [mGood2Fix] [mGoodFix] mBadFix (by decide)).1 steamFix,
   (claim_C6 [] [] steamFix true [mGood2Fix] [mGoodFix] mBadFix (by decide)).2⟩

/-! ## Claim C7: overlay placement verifies sources before copying -/

/-- C7: when any overlay source file is missing from the overlay build
directory, patch_selected_game changes nothing on disk and reports
exactly one error, which names a missing overlay file. -/
theorem claim_C7 (fs : Fs) (dxvk_bin : UPath) (g : GameEntry)
    (h : ∃ d ∈ dxvk_dlls, fsExists fs (dxvk_bin.child d) = false) :
    (patch_selected_game fs dxvk_bin g).fs = fs ∧
    ∃ d ∈ dxvk_dlls, fsExists fs (dxvk_bin.child d) = false ∧
      (patch_selected_game fs dxvk_bin g).errors = [d] := by
  have hfind : (dxvk_dlls.find? (fun d => !(fsExists fs (dxvk_bin.child d)))).isSome := by
    rw [List.find?_isSome]
    rcases h with ⟨d, hd, hex⟩
    exact ⟨d, hd, by simp [hex]⟩
  cases hf : dxvk_dlls.find? (fun d => !(fsExists fs (dxvk_bin.child d))) with
  | none =>
    rw [hf] at hfind
    simp at hfind
  | some d =>
    have hmem := List.mem_of_find?_eq_some hf
    have hprop := List.find?_some hf
    refine ⟨?_, d, hmem, by simpa using hprop, ?_⟩
    · unfold patch_selected_game
      rw [hf]
    · unfold patch_selected_game
      rw [hf]

/-- Witness for C7: with d3d11.dll absent from the build directory the
patch reports it and copies nothing. -/
theorem claim_C7_witness :
    fsExists fsC7 (binFix.child "d3d11.dll") = false ∧
    (patch_selected_game fsC7 binFix gFoo).fs = fsC7 ∧
    (∃ d ∈ dxvk_dlls, fsExists fsC7 (binFix.child d) = false ∧
      (patch_selected_game fsC7 binFix gFoo).errors = [d]) :=
  ⟨by decide,
   (claim_C7 fsC7 binFix gFoo ⟨"d3d11.dll", by decide, by decide⟩).1,
   (claim_C7 fsC7 binFix gFoo ⟨"d3d11.dll", by decide, by decide⟩).2⟩

/-! ## Claims C1, C2, C10: executable detection -/

theorem sizeDescLe_total (a b : List String × FsKind) :
    sizeDescLe a b = true ∨ sizeDescLe b a = true := by
  simp only [sizeDescLe, decide_eq_true_eq]
  omega

theorem sizeDescLe_trans (a b c : List String × FsKind)
    (h1 : sizeDescLe a b = true) (h2 : sizeDescLe b c = true) :
    sizeDescLe a c = true := by
  simp only [sizeDescLe, decide_eq_true_eq] at h1 h2 ⊢
  omega

theorem sortSize_head (l : List (List String × FsKind)) (hne : l ≠ []) :
    ∃ r t, sortBy sizeDescLe l = r :: t ∧ r ∈ l ∧
      ∀ c ∈ l, kindSize c.2 ≤ kindSize r.2 := by
  cases hs : sortBy sizeDescLe l with
  | nil => exact absurd (sortBy_eq_nil.mp hs) hne
  | cons r t =>
    refine ⟨r, t, rfl, sortBy_head_mem hs, ?_⟩
    intro c hc
    have := sortBy_head_le sizeDescLe_total sizeDescLe_trans hs c hc
    simpa [sizeDescLe] using this

/-- C1 (amended): when the recursive shipping glob has at least one
match, detect_exe immediately returns a match of maximal reported stat
size, before any later tier; since the glob also matches directories,
this is the largest matching regular file exactly when no matching
directory reports a larger size, as in the spec's example. -/
theorem claim_C1 (fs : Fs) (g : GameEntry)
    (hgd : fsExists fs (game_dir g) = true)
    (hship : shipMatches fs g ≠ []) :
    ∃ pr : List String × FsKind, pr ∈ shipMatches fs g ∧
      MacNCheese_detect_exe fs g = some ((game_dir g).extend pr.1) ∧
      ∀ q ∈ shipMatches fs g, kindSize q.2 ≤ kindSize pr.2 := by
  rcases sortSize_head _ hship with ⟨r, t, hs, hrm, hmax⟩
  refine ⟨r, hrm, ?_, hmax⟩
  unfold MacNCheese_detect_exe
  simp only [hgd, if_true, hs]

/-- Witness for C1: the spec's example returns the 500MB shipping
binary; the 10MB file does not match the suffix pattern. -/
theorem claim_C1_witness :
    fsExists fsC1 (game_dir gFoo) = true ∧ shipMatches fsC1 gFoo ≠ [] ∧
    MacNCheese_detect_exe fsC1 gFoo = some (gdFoo.child "Foo-Win64-Shipping.exe") ∧
    (∃ pr : List String × FsKind, pr ∈ shipMatches fsC1 gFoo ∧
      MacNCheese_detect_exe fsC1 gFoo = some ((game_dir gFoo).extend pr.1) ∧
      ∀ q ∈ shipMatches fsC1 gFoo, kindSize q.2 ≤ kindSize pr.2) :=
  ⟨by decide, by decide, by decide, claim_C1 fsC1 gFoo (by decide) (by decide)⟩

/-- Counterexample to C1 as stated: a directory whose name matches the
shipping pattern and whose stat size exceeds that of the only matching
regular file is returned by the fast path, so detect_exe does not return
the largest matching file. -/
theorem claim_C1_counterexample :
    MacNCheese_detect_exe fsC1x gFoo = some (gdFoo.child "Big-Win64-Shipping.exe") ∧
    isDirAt fsC1x (gdFoo.child "Big-Win64-Shipping.exe") = true ∧
    (["Tiny-Win64-Shipping.exe"], FsKind.file 100 "t") ∈ shipMatches fsC1x gFoo ∧
    MacNCheese_detect_exe fsC1x gFoo ≠ some (gdFoo.child "Tiny-Win64-Shipping.exe") := by
  exact ⟨by decide, by decide, by decide, by decide⟩

/-- C10: the engine fast path does not apply the denylist: when the only
shipping-glob match is a file whose lowered name contains a denylisted
substring, that file is still returned. -/
theorem claim_C10 (fs : Fs) (g : GameEntry) (rel : List String) (k : FsKind)
    (hgd : fsExists fs (game_dir g) = true)
    (hship : shipMatches fs g = [(rel, k)])
    (_hbad : is_probably_not_game (relName rel) = true) :
    MacNCheese_detect_exe fs g = some ((game_dir g).extend rel) := by
  unfold MacNCheese_detect_exe
  simp only [hgd, if_true, hship]
  rfl

/-- Witness for C10: vcredist-Shipping.exe is denylisted for the later
tiers yet is returned by the fast path, outranking the larger Game.exe. -/
theorem claim_C10_witness :
    fsExists fsC10 (game_dir gFoo) = true ∧
    shipMatches fsC10 gFoo = [(["vcredist-Shipping.exe"], FsKind.file 1000 "v")] ∧
    is_probably_not_game (relName ["vcredist-Shipping.exe"]) = true ∧
    MacNCheese_detect_exe fsC10 gFoo =
      some ((game_dir gFoo).extend ["vcredist-Shipping.exe"]) :=
  ⟨by decide, by decide, by decide,
   claim_C10 fsC10 gFoo ["vcredist-Shipping.exe"] (FsKind.file 1000 "v")
     (by decide) (by decide) (by decide)⟩

/-- C2: on a root directory holding exactly setup.exe (50MB),
UnityCrashHandler64.exe (20MB) and Game.exe (40MB), with no synthesized
exact name colliding with the two denylisted utilities, the full
detect_exe returns Game.exe: the root scan sorts by descending size and
drops denylisted names, leaving Game.exe as the first surviving
candidate. -/
theorem claim_C2 (fs : Fs) (g : GameEntry)
    (hgd : fsExists fs (game_dir g) = true)
    (h2 : underRel fs (game_dir g) =
      [(["setup.exe"], .file 52428800 "s"),
       (["UnityCrashHandler64.exe"], .file 20971520 "u"),
       (["Game.exe"], .file 41943040 "g")])
    (h3 : ∀ n ∈ exact_names g, n ≠ "setup.exe" ∧ n ≠ "UnityCrashHandler64.exe") :
    MacNCheese_detect_exe fs g = some ((game_dir g).child "Game.exe") := by
  have hship : shipMatches fs g = [] := by
    unfold shipMatches
    rw [h2]
    decide
  have hroot : rootScanCands fs g = [["Game.exe"]] := by
    unfold rootScanCands
    rw [h2]
    decide
  have hsub : subExes fs g = [] := by
    unfold subExes
    rw [h2]
    decide
  have hsubc : subScanCands fs g = [] := by
    unfold subScanCands
    rw [hsub]
    decide
  have hfile : isFileAt fs ((game_dir g).extend ["Game.exe"]) = true := by
    unfold isFileAt
    rw [fsFind_extend fs (by simp), h2]
    decide
  have hexact : ∀ x ∈ exactCands fs g, x = ["Game.exe"] := by
    intro x hx
    unfold exactCands at hx
    rcases List.mem_filterMap.mp hx with ⟨n, hn, hcond⟩
    by_cases hex : fsExists fs ((game_dir g).child n) = true
    · rw [if_pos hex] at hcond
      injection hcond with hxn
      have hany := hex
      rw [show (game_dir g).child n = (game_dir g).extend [n] from rfl,
        fsExists_extend fs (by simp), h2] at hany
      simp only [List.any_cons, List.any_nil, Bool.or_eq_true, Bool.or_false] at hany
      rcases h3 n hn with ⟨hn1, hn2⟩
      rcases hany with hh | hh | hh
      · exact absurd (Eq.symm (by simpa using hh)) hn1
      · exact absurd (Eq.symm (by simpa using hh)) hn2
      · have hng : n = "Game.exe" := Eq.symm (by simpa using hh)
        rw [← hxn, hng]
    · rw [if_neg hex] at hcond
      exact absurd hcond (by simp)
  have hcand : candidatesAll fs g = exactCands fs g ++ ["Game.exe"] :: [] := by
    unfold candidatesAll
    rw [hroot, hsubc]
    simp
  unfold MacNCheese_detect_exe
  simp only [hgd, if_true, hship]
  show (match (candidatesAll fs g).find?
      (fun rel => isFileAt fs ((game_dir g).extend rel)) with
    | some rel => some ((game_dir g).extend rel)
    | none => none) = some ((game_dir g).child "Game.exe")
  rw [hcand, find?_all_eq hexact hfile]
  rfl

/-- Witness for C2: the spec's example with a title whose names do not
collide with the denylisted files resolves to Game.exe. -/
theorem claim_C2_witness :
    fsExists fsC2 (game_dir gFoo) = true ∧
    (∀ n ∈ exact_names gFoo, n ≠ "setup.exe" ∧ n ≠ "UnityCrashHandler64.exe") ∧
    MacNCheese_detect_exe fsC2 gFoo = some ((game_dir gFoo).child "Game.exe") :=
  ⟨by decide, by decide,
   claim_C2 fsC2 gFoo (by decide) (by decide) (by decide)⟩

/-! ## Claim C8: overlay placement targets -/

theorem ship_imp_exe {s : String} (h : strEndsWith s "-Shipping.exe" = true) :
    strEndsWith s ".exe" = true := by
  have hsplit : ("-Shipping.exe" : String) = "-Shipping" ++ ".exe" := by decide
  rw [hsplit] at h
  exact strEndsWith_of_append h

theorem exact_names_exe (g : GameEntry) :
    ∀ n ∈ exact_names g, strEndsWith n ".exe" = true := by
  intro n hn
  simp only [exact_names, List.mem_cons, List.mem_singleton, List.not_mem_nil,
    or_false] at hn
  rcases hn with rfl | rfl | rfl | rfl <;> exact strEndsWith_append _ _

theorem mem_underRel_ne_nil {fs : Fs} {base : UPath}
    {pr : List String × FsKind} (h : pr ∈ underRel fs base) : pr.1 ≠ [] := by
  unfold underRel at h
  rcases List.mem_filterMap.mp h with ⟨e, _, he⟩
  cases pr with
  | mk r k => exact (relOf_some he).2.2

theorem underRel_setFile_filter (pred : List String × FsKind → Bool)
    {base : UPath} {r0 : List String} (k : FsKind)
    (h0 : r0 ≠ []) (hp : ∀ k2, pred (r0, k2) = false) :
    ∀ fs : Fs,
      (underRel (setFile fs (base.extend r0) k) base).filter pred =
      (underRel fs base).filter pred := by
  intro fs
  induction fs with
  | nil =>
    simp only [setFile, underRel, List.filterMap_cons, List.filterMap_nil]
    rw [relOf_extend h0]
    simp [hp k]
  | cons e rest ih =>
    by_cases he : e.path = base.extend r0
    · simp only [setFile, if_pos he, underRel, List.filterMap_cons]
      rw [relOf_extend h0]
      have hrel : relOf base e = some (r0, e.kind) := by
        have he2 : e = ⟨base.extend r0, e.kind⟩ := by cases e; simp_all
        rw [he2]
        exact relOf_extend h0 e.kind
      rw [hrel]
      simp [hp k, hp e.kind]
    · simp only [setFile, if_neg he, underRel, List.filterMap_cons]
      cases hr : relOf base e with
      | none => exact ih
      | some pr =>
        simp only [List.filter_cons]
        unfold underRel at ih
        rw [ih]

theorem candidatesAll_props (fs : Fs) (g : GameEntry) :
    ∀ rel ∈ candidatesAll fs g,
      strEndsWith (relName rel) ".exe" = true ∧ rel ≠ [] := by
  intro rel hrel
  unfold candidatesAll at hrel
  rcases List.mem_append.mp hrel with h12 | h3
  · rcases List.mem_append.mp h12 with h1 | h2
    · unfold exactCands at h1
      rcases List.mem_filterMap.mp h1 with ⟨n, hn, hcond⟩
      by_cases hex : fsExists fs ((game_dir g).child n) = true
      · rw [if_pos hex] at hcond
        injection hcond with hc
        subst hc
        exact ⟨exact_names_exe g n hn, by simp⟩
      · rw [if_neg hex] at hcond
        exact absurd hcond (by simp)
    · unfold rootScanCands at h2
      rcases List.mem_map.mp h2 with ⟨pr, hpr, hfst⟩
      have hpr2 := (List.mem_filter.mp hpr).1
      have hpr3 := sortBy_mem.mp hpr2
      have hpred := (List.mem_filter.mp hpr3).2
      have hmem := (List.mem_filter.mp hpr3).1
      simp only [rootExePred, Bool.and_eq_true] at hpred
      rw [← hfst]
      exact ⟨hpred.2, mem_underRel_ne_nil hmem⟩
  · have hsub : ∀ pr : List String × FsKind, pr ∈ subExes fs g →
        strEndsWith (relName pr.1) ".exe" = true ∧ pr.1 ≠ [] := by
      intro pr hpr
      unfold subExes at hpr
      rcases List.mem_flatten.mp hpr with ⟨l, hl, hprl⟩
      rcases List.mem_map.mp hl with ⟨kk, _, hlk⟩
      rw [← hlk] at hprl
      have hpred := (List.mem_filter.mp hprl).2
      have hmem := (List.mem_filter.mp hprl).1
      simp only [depthExePred, Bool.and_eq_true] at hpred
      exact ⟨hpred.1.1.2, mem_underRel_ne_nil hmem⟩
    unfold subScanCands at h3
    rcases List.mem_append.mp h3 with h31 | h32
    · rcases List.mem_map.mp h31 with ⟨pr, hpr, hfst⟩
      have hpr2 := sortBy_mem.mp hpr
      have hmem := (List.mem_filter.mp hpr2).1
      rw [← hfst]
      exact hsub pr hmem
    · rcases List.mem_map.mp h32 with ⟨pr, hpr, hfst⟩
      have hpr2 := sortBy_mem.mp hpr
      rw [← hfst]
      exact hsub pr hpr2

theorem isFileAt_setFile_ne {fs : Fs} {p q : UPath} {k : FsKind} (h : q ≠ p) :
    isFileAt (setFile fs p k) q = isFileAt fs q := by
  unfold isFileAt
  rw [fsFind_setFile, if_neg h]

theorem detect_setFile (fs : Fs) (g : GameEntry) {r0 : List String} (k : FsKind)
    (h0 : r0 ≠ []) (hexe : strEndsWith (relName r0) ".exe" = false) :
    MacNCheese_detect_exe (setFile fs ((game_dir g).extend r0) k) g =
    MacNCheese_detect_exe fs g := by
  have hshipf : ∀ k2, shipPred (r0, k2) = false := by
    intro k2
    cases hc : shipPred (r0, k2) with
    | false => rfl
    | true =>
      have := ship_imp_exe (by simpa [shipPred] using hc)
      rw [this] at hexe
      exact absurd hexe (by simp)
  have hrootf : ∀ k2, rootExePred (r0, k2) = false := by
    intro k2
    simp [rootExePred, hexe]
  have hSm : shipMatches (setFile fs ((game_dir g).extend r0) k) g = shipMatches fs g := by
    unfold shipMatches
    exact underRel_setFile_filter shipPred k h0 hshipf fs
  have hRc : rootScanCands (setFile fs ((game_dir g).extend r0) k) g = rootScanCands fs g := by
    unfold rootScanCands
    rw [underRel_setFile_filter rootExePred k h0 hrootf fs]
  have hSe : subExes (setFile fs ((game_dir g).extend r0) k) g = subExes fs g := by
    unfold subExes
    congr 1
    apply List.map_congr_left
    intro kk _
    apply underRel_setFile_filter _ k h0
    intro k2
    simp [depthExePred, hexe]
  have hSc : subScanCands (setFile fs ((game_dir g).extend r0) k) g = subScanCands fs g := by
    unfold subScanCands
    rw [hSe]
  have hEx : exactCands (setFile fs ((game_dir g).extend r0) k) g = exactCands fs g := by
    unfold exactCands
    apply List.filterMap_congr
    intro n hn
    have hne : (game_dir g).child n ≠ (game_dir g).extend r0 := by
      intro heq
      have hr : [n] = r0 := UPath.extend_right_inj.mp heq
      rw [← hr] at hexe
      have hexe2 : strEndsWith n ".exe" = false := hexe
      rw [exact_names_exe g n hn] at hexe2
      exact absurd hexe2 (by simp)
    rw [fsExists_setFile, if_neg hne]
  have hCa : candidatesAll (setFile fs ((game_dir g).extend r0) k) g = candidatesAll fs g := by
    unfold candidatesAll
    rw [hEx, hRc, hSc]
  have hGd : fsExists (setFile fs ((game_dir g).extend r0) k) (game_dir g) =
      fsExists fs (game_dir g) := by
    rw [fsExists_setFile, if_neg (fun h => UPath.extend_ne_self h0 h.symm)]
  unfold MacNCheese_detect_exe
  rw [hGd, hSm, hCa]
  have hFind : (candidatesAll fs g).find?
      (fun rel => isFileAt (setFile fs ((game_dir g).extend r0) k) ((game_dir g).extend rel)) =
      (candidatesAll fs g).find? (fun rel => isFileAt fs ((game_dir g).extend rel)) := by
    apply find?_congr
    intro rel hrel
    have hne : (game_dir g).extend rel ≠ (game_dir g).extend r0 := by
      intro heq
      have hr : rel = r0 := UPath.extend_right_inj.mp heq
      have := (candidatesAll_props fs g rel hrel).1
      rw [hr] at this
      rw [this] at hexe
      exact absurd hexe (by simp)
    exact isFileAt_setFile_ne hne
  rw [hFind]

theorem detect_shape {fs : Fs} {g : GameEntry} {e : UPath}
    (h : MacNCheese_detect_exe fs g = some e) :
    ∃ rel, rel ≠ [] ∧ e = (game_dir g).extend rel := by
  unfold MacNCheese_detect_exe at h
  by_cases hgd : fsExists fs (game_dir g) = true
  · rw [if_pos hgd] at h
    cases hs : sortBy sizeDescLe (shipMatches fs g) with
    | cons pr t =>
      rw [hs] at h
      have h2 : some ((game_dir g).extend pr.1) = some e := h
      injection h2 with he
      refine ⟨pr.1, ?_, he.symm⟩
      have hm := sortBy_head_mem hs
      have hm2 : pr ∈ underRel fs (game_dir g) := by
        unfold shipMatches at hm
        exact (List.mem_filter.mp hm).1
      exact mem_underRel_ne_nil hm2
    | nil =>
      rw [hs] at h
      cases hf : (candidatesAll fs g).find?
          (fun rel => isFileAt fs ((game_dir g).extend rel)) with
      | some rel =>
        rw [hf] at h
        have h2 : some ((game_dir g).extend rel) = some e := h
        injection h2 with he
        exact ⟨rel, (candidatesAll_props fs g rel (List.mem_of_find?_eq_some hf)).2,
          he.symm⟩
      | none =>
        rw [hf] at h
        exact absurd h (by simp)
  · rw [if_neg hgd] at h
    exact absurd h (by simp)

theorem child_ne_of_base {p q : UPath} {a b : String} (h : p ≠ q) :
    p.child a ≠ q.child b :=
  fun he => h (UPath.child_inj.mp he).1

theorem child_ne_of_name {p q : UPath} {a b : String} (h : a ≠ b) :
    p.child a ≠ q.child b :=
  fun he => h (UPath.child_inj.mp he).2

theorem cstep_eq {bin t : UPath} {f : Fs} {d : String} {k : FsKind}
    (h : fsFind f (bin.child d) = some k) :
    cstep bin t f d = setFile f (t.child d) k := by
  unfold cstep
  rw [h]

theorem copy_dlls_spec (bin t : UPath) (f0 : Fs) (k1 k2 k3 : FsKind)
    (ht : t ≠ bin)
    (h1 : fsFind f0 (bin.child "dxgi.dll") = some k1)
    (h2 : fsFind f0 (bin.child "d3d11.dll") = some k2)
    (h3 : fsFind f0 (bin.child "d3d10core.dll") = some k3) :
    copy_dlls bin f0 t =
      setFile (setFile (setFile f0 (t.child "dxgi.dll") k1)
        (t.child "d3d11.dll") k2) (t.child "d3d10core.dll") k3 ∧
    fsFind (copy_dlls bin f0 t) (bin.child "dxgi.dll") = some k1 ∧
    fsFind (copy_dlls bin f0 t) (bin.child "d3d11.dll") = some k2 ∧
    fsFind (copy_dlls bin f0 t) (bin.child "d3d10core.dll") = some k3 ∧
    fsFind (copy_dlls bin f0 t) (t.child "dxgi.dll") = some k1 ∧
    fsFind (copy_dlls bin f0 t) (t.child "d3d11.dll") = some k2 ∧
    fsFind (copy_dlls bin f0 t) (t.child "d3d10core.dll") = some k3 ∧
    (∀ q : UPath, (∀ d ∈ dxvk_dlls, q ≠ t.child d) →
      fsFind (copy_dlls bin f0 t) q = fsFind f0 q) := by
  have hbt : ∀ a b : String, bin.child a ≠ t.child b :=
    fun a b => child_ne_of_base (fun hh => ht hh.symm)
  have s2 : fsFind (setFile f0 (t.child "dxgi.dll") k1) (bin.child "d3d11.dll") =
      some k2 := by
    rw [fsFind_setFile, if_neg (hbt _ _)]
    exact h2
  have s3 : fsFind (setFile (setFile f0 (t.child "dxgi.dll") k1)
      (t.child "d3d11.dll") k2) (bin.child "d3d10core.dll") = some k3 := by
    rw [fsFind_setFile, if_neg (hbt _ _), fsFind_setFile, if_neg (hbt _ _)]
    exact h3
  have heq : copy_dlls bin f0 t =
      setFile (setFile (setFile f0 (t.child "dxgi.dll") k1)
        (t.child "d3d11.dll") k2) (t.child "d3d10core.dll") k3 := by
    unfold copy_dlls dxvk_dlls
    rw [List.foldl_cons, cstep_eq h1, List.foldl_cons, cstep_eq s2,
      List.foldl_cons, cstep_eq s3, List.foldl_nil]
  have hne1 : ("dxgi.dll" : String) ≠ "d3d11.dll" := by decide
  have hne2 : ("dxgi.dll" : String) ≠ "d3d10core.dll" := by decide
  have hne3 : ("d3d11.dll" : String) ≠ "d3d10core.dll" := by decide
  refine ⟨heq, ?_, ?_, ?_, ?_, ?_, ?_, ?_⟩
  · rw [heq, fsFind_setFile, if_neg (hbt _ _), fsFind_setFile, if_neg (hbt _ _),
      fsFind_setFile, if_neg (hbt _ _)]
    exact h1
  · rw [heq, fsFind_setFile, if_neg (hbt _ _), fsFind_setFile, if_neg (hbt _ _),
      fsFind_setFile, if_neg (hbt _ _)]
    exact h2
  · rw [heq, fsFind_setFile, if_neg (hbt _ _), fsFind_setFile, if_neg (hbt _ _),
      fsFind_setFile, if_neg (hbt _ _)]
    exact h3
  · rw [heq, fsFind_setFile, if_neg (child_ne_of_name hne2),
      fsFind_setFile, if_neg (child_ne_of_name hne1),
      fsFind_setFile, if_pos rfl]
  · rw [heq, fsFind_setFile, if_neg (child_ne_of_name hne3),
      fsFind_setFile, if_pos rfl]
  · rw [heq, fsFind_setFile, if_pos rfl]
  · intro q hq
    rw [heq, fsFind_setFile, if_neg (hq _ (by decide)),
      fsFind_setFile, if_neg (hq _ (by decide)),
      fsFind_setFile, if_neg (hq _ (by decide))]

theorem copy_fold_spec (bin : UPath) (k1 k2 k3 : FsKind) :
    ∀ (ts : List UPath) (f0 : Fs),
      (∀ t ∈ ts, t ≠ bin) →
      fsFind f0 (bin.child "dxgi.dll") = some k1 →
      fsFind f0 (bin.child "d3d11.dll") = some k2 →
      fsFind f0 (bin.child "d3d10core.dll") = some k3 →
      (fsFind (ts.foldl (copy_dlls bin) f0) (bin.child "dxgi.dll") = some k1 ∧
       fsFind (ts.foldl (copy_dlls bin) f0) (bin.child "d3d11.dll") = some k2 ∧
       fsFind (ts.foldl (copy_dlls bin) f0) (bin.child "d3d10core.dll") = some k3) ∧
      (∀ t ∈ ts,
        fsFind (ts.foldl (copy_dlls bin) f0) (t.child "dxgi.dll") = some k1 ∧
        fsFind (ts.foldl (copy_dlls bin) f0) (t.child "d3d11.dll") = some k2 ∧
        fsFind (ts.foldl (copy_dlls bin) f0) (t.child "d3d10core.dll") = some k3) ∧
      (∀ q : UPath, (∀ t ∈ ts, ∀ d ∈ dxvk_dlls, q ≠ t.child d) →
        fsFind (ts.foldl (copy_dlls bin) f0) q = fsFind f0 q) ∧
      (∀ t0 : UPath,
        (fsFind f0 (t0.child "dxgi.dll") = some k1 →
          fsFind (ts.foldl (copy_dlls bin) f0) (t0.child "dxgi.dll") = some k1) ∧
        (fsFind f0 (t0.child "d3d11.dll") = some k2 →
          fsFind (ts.foldl (copy_dlls bin) f0) (t0.child "d3d11.dll") = some k2) ∧
        (fsFind f0 (t0.child "d3d10core.dll") = some k3 →
          fsFind (ts.foldl (copy_dlls bin) f0) (t0.child "d3d10core.dll") = some k3)) := by
  intro ts
  induction ts with
  | nil =>
    intro f0 _ h1 h2 h3
    exact ⟨⟨h1, h2, h3⟩, by simp, fun q _ => rfl,
      fun t0 => ⟨fun h => h, fun h => h, fun h => h⟩⟩
  | cons t ts' ih =>
    intro f0 hts h1 h2 h3
    have ht : t ≠ bin := hts t (List.mem_cons_self t ts')
    have hts' : ∀ t2 ∈ ts', t2 ≠ bin := fun t2 h => hts t2 (List.mem_cons_of_mem t h)
    rcases copy_dlls_spec bin t f0 k1 k2 k3 ht h1 h2 h3 with
      ⟨_, hs1, hs2, hs3, hw1, hw2, hw3, hun⟩
    rcases ih (copy_dlls bin f0 t) hts' hs1 hs2 hs3 with ⟨ihS, ihT, ihU, ihV⟩
    rw [List.foldl_cons]
    refine ⟨ihS, ?_, ?_, ?_⟩
    · intro t2 ht2
      rcases List.mem_cons.mp ht2 with rfl | ht2
      · exact ⟨(ihV t2).1 hw1, (ihV t2).2.1 hw2, (ihV t2).2.2 hw3⟩
      · exact ihT t2 ht2
    · intro q hq
      have hq1 : ∀ t2 ∈ ts', ∀ d ∈ dxvk_dlls, q ≠ t2.child d :=
        fun t2 h2m => hq t2 (List.mem_cons_of_mem t h2m)
      have hq0 : ∀ d ∈ dxvk_dlls, q ≠ t.child d :=
        hq t (List.mem_cons_self t ts')
      rw [ihU q hq1, hun q hq0]
    · intro t0
      by_cases h0 : t0 = t
      · subst h0
        exact ⟨fun _ => (ihV t0).1 hw1, fun _ => (ihV t0).2.1 hw2,
          fun _ => (ihV t0).2.2 hw3⟩
      · have hune : ∀ a : String, (∀ d ∈ dxvk_dlls, t0.child a ≠ t.child d) :=
          fun a d _ => child_ne_of_base h0
        refine ⟨?_, ?_, ?_⟩
        · intro hv
          apply (ihV t0).1
          rw [hun _ (hune _)]
          exact hv
        · intro hv
          apply (ihV t0).2.1
          rw [hun _ (hune _)]
          exact hv
        · intro hv
          apply (ihV t0).2.2
          rw [hun _ (hune _)]
          exact hv

theorem relName_of_bw {r : List String}
    (hd : r.drop (r.length - 2) = ["Binaries", "Win64"]) : relName r = "Win64" := by
  have hsplit := List.take_append_drop (r.length - 2) r
  have h2 : relName r = relName (r.take (r.length - 2) ++ r.drop (r.length - 2)) := by
    rw [hsplit]
  rw [h2, hd]
  unfold relName
  rw [show r.take (r.length - 2) ++ ["Binaries", "Win64"] =
      (r.take (r.length - 2) ++ ["Binaries"]) ++ ["Win64"] from by
    rw [List.append_assoc]; rfl]
  exact List.getLastD_concat _ _ _

theorem bwPred_false {r0 : List String} (h : relName r0 ≠ "Win64") :
    ∀ k2, bwPred (r0, k2) = false := by
  intro k2
  cases hc : bwPred (r0, k2) with
  | false => rfl
  | true =>
    unfold bwPred at hc
    simp only [Bool.and_eq_true, decide_eq_true_eq] at hc
    exact absurd (relName_of_bw hc.2) h

theorem bwPredWNE_false {r0 : List String} (h : relName r0 ≠ "Win64") :
    ∀ k2, bwPredWNE (r0, k2) = false := by
  intro k2
  unfold bwPredWNE
  rw [bwPred_false h k2]
  rfl

theorem win64_setFile (fs : Fs) (g : GameEntry) {r0 : List String} (k : FsKind)
    (h0 : r0 ≠ []) (hw : relName r0 ≠ "Win64") :
    win64_dirs (setFile fs ((game_dir g).extend r0) k) g = win64_dirs fs g := by
  unfold win64_dirs
  rw [show (underRel (setFile fs ((game_dir g).extend r0) k) (game_dir g)).filter bwPred =
      (underRel fs (game_dir g)).filter bwPred from
    underRel_setFile_filter bwPred k h0 (bwPred_false hw) fs]
  rw [show (underRel (setFile fs ((game_dir g).extend r0) k) (game_dir g)).filter bwPredWNE =
      (underRel fs (game_dir g)).filter bwPredWNE from
    underRel_setFile_filter bwPredWNE k h0 (bwPredWNE_false hw) fs]

theorem underOrEqB_extend (base : UPath) (rel : List String) :
    underOrEqB base (base.extend rel) = true := by
  unfold underOrEqB UPath.extend
  simp [List.take_left]

theorem extend_ne_of_not_under {gd bin : UPath} (h : underOrEqB gd bin = false) :
    ∀ rel, gd.extend rel ≠ bin := by
  intro rel he
  rw [← he, underOrEqB_extend] at h
  exact absurd h (by simp)

theorem parentDir_extend {base : UPath} {rel : List String} (h : rel ≠ []) :
    (base.extend rel).parentDir = base.extend rel.dropLast := by
  unfold UPath.parentDir UPath.extend
  simp [List.dropLast_append_of_ne_nil _ h]

theorem extend_nil (p : UPath) : p.extend [] = p := by
  unfold UPath.extend
  cases p
  simp

theorem extend_child (p : UPath) (r : List String) (s : String) :
    (p.extend r).child s = p.extend (r ++ [s]) := by
  unfold UPath.child UPath.extend
  simp

theorem relName_snoc (r : List String) (d : String) : relName (r ++ [d]) = d :=
  List.getLastD_concat _ _ _

/-- C8: with every overlay source present as a regular file, the overlay
build directory outside the install tree, the install directory existing
as a directory, and no entry of the install tree shadowing an overlay
name as a directory or passing through one, patch_selected_game reports
no error and writes every overlay file (a) into the install directory,
(b) into the directory of the detected executable whenever that
directory exists and differs from the install directory, and (c) into
every Binaries/Win64 directory found by the recursive searches,
overwriting whatever was there: afterwards each of those directories
holds each overlay file with exactly the source's kind and content. -/
theorem claim_C8 (fs : Fs) (bin : UPath) (g : GameEntry)
    (h1 : ∀ d ∈ dxvk_dlls, isFileAt fs (bin.child d) = true)
    (h2 : isDirAt fs (game_dir g) = true)
    (h3 : underOrEqB (game_dir g) bin = false)
    (_h4 : ∀ pr ∈ underRel fs (game_dir g),
      (isDirKind pr.2 = true → relName pr.1 ∉ dxvk_dlls) ∧
      (∀ d ∈ dxvk_dlls, d ∉ pr.1.dropLast)) :
    (patch_selected_game fs bin g).errors = [] ∧
    (∀ d ∈ dxvk_dlls,
      fsFind (patch_selected_game fs bin g).fs ((game_dir g).child d) =
        fsFind fs (bin.child d)) ∧
    (∀ e : UPath, MacNCheese_detect_exe fs g = some e →
      fsExists fs e.parentDir = true → ¬ e.parentDir = game_dir g →
      ∀ d ∈ dxvk_dlls,
        fsFind (patch_selected_game fs bin g).fs (e.parentDir.child d) =
          fsFind fs (bin.child d)) ∧
    (∀ rel ∈ win64_dirs fs g, ∀ d ∈ dxvk_dlls,
      fsFind (patch_selected_game fs bin g).fs (((game_dir g).extend rel).child d) =
        fsFind fs (bin.child d)) := by
  have hsome : ∀ d ∈ dxvk_dlls, ∃ kk, fsFind fs (bin.child d) = some kk := by
    intro d hd
    have hh := h1 d hd
    unfold isFileAt at hh
    cases hf : fsFind fs (bin.child d) with
    | none => rw [hf] at hh; exact absurd hh (by simp)
    | some kk => exact ⟨kk, rfl⟩
  obtain ⟨k1, hK1⟩ := hsome "dxgi.dll" (by decide)
  obtain ⟨k2, hK2⟩ := hsome "d3d11.dll" (by decide)
  obtain ⟨k3, hK3⟩ := hsome "d3d10core.dll" (by decide)
  have hex : ∀ d ∈ dxvk_dlls, fsExists fs (bin.child d) = true := by
    intro d hd
    obtain ⟨kk, hk⟩ := hsome d hd
    unfold fsExists
    rw [hk]
    rfl
  have hfind_none : dxvk_dlls.find? (fun d => !(fsExists fs (bin.child d))) = none := by
    rw [List.find?_eq_none]
    intro d hd
    simp [hex d hd]
  have hgdE : fsExists fs (game_dir g) = true := by
    unfold isDirAt at h2
    unfold fsExists
    cases hf : fsFind fs (game_dir g) with
    | none => rw [hf] at h2; exact absurd h2 (by simp)
    | some kk => rfl
  have hmk : mkdirP fs (game_dir g) = fs := by
    unfold mkdirP
    rw [if_pos hgdE]
  have hgd_ne_bin : ∀ rel, (game_dir g).extend rel ≠ bin :=
    extend_ne_of_not_under h3
  have hgd_ne_bin0 : game_dir g ≠ bin := by
    have := hgd_ne_bin []
    rwa [extend_nil] at this
  rcases copy_dlls_spec bin (game_dir g) fs k1 k2 k3 hgd_ne_bin0 hK1 hK2 hK3 with
    ⟨hAeq, hA1, hA2, hA3, hAw1, hAw2, hAw3, hAun⟩
  have hdet : MacNCheese_detect_exe (copy_dlls bin fs (game_dir g)) g =
      MacNCheese_detect_exe fs g := by
    rw [hAeq,
      show (game_dir g).child "d3d10core.dll" =
        (game_dir g).extend ["d3d10core.dll"] from rfl,
      show (game_dir g).child "d3d11.dll" =
        (game_dir g).extend ["d3d11.dll"] from rfl,
      show (game_dir g).child "dxgi.dll" =
        (game_dir g).extend ["dxgi.dll"] from rfl,
      detect_setFile _ g k3 (by simp) (by decide),
      detect_setFile _ g k2 (by simp) (by decide),
      detect_setFile _ g k1 (by simp) (by decide)]
  have hmono : ∀ q : UPath, fsExists fs q = true →
      fsExists (copy_dlls bin fs (game_dir g)) q = true := by
    intro q hq
    rw [hAeq]
    exact fsExists_setFile_mono _ _
      (fsExists_setFile_mono _ _ (fsExists_setFile_mono _ _ hq))
  have hw64A : win64_dirs (copy_dlls bin fs (game_dir g)) g = win64_dirs fs g := by
    rw [hAeq,
      show (game_dir g).child "d3d10core.dll" =
        (game_dir g).extend ["d3d10core.dll"] from rfl,
      show (game_dir g).child "d3d11.dll" =
        (game_dir g).extend ["d3d11.dll"] from rfl,
      show (game_dir g).child "dxgi.dll" =
        (game_dir g).extend ["dxgi.dll"] from rfl,
      win64_setFile _ g k3 (by simp) (by decide),
      win64_setFile _ g k2 (by simp) (by decide),
      win64_setFile _ g k1 (by simp) (by decide)]
  have hstage : ∃ fs3 : Fs,
      patch_selected_game fs bin g =
        ⟨(sortBy pathLeB ((win64_dirs fs3 g).map
            (fun rel => (game_dir g).extend rel))).foldl (copy_dlls bin) fs3, []⟩ ∧
      (fsFind fs3 (bin.child "dxgi.dll") = some k1 ∧
       fsFind fs3 (bin.child "d3d11.dll") = some k2 ∧
       fsFind fs3 (bin.child "d3d10core.dll") = some k3) ∧
      (fsFind fs3 ((game_dir g).child "dxgi.dll") = some k1 ∧
       fsFind fs3 ((game_dir g).child "d3d11.dll") = some k2 ∧
       fsFind fs3 ((game_dir g).child "d3d10core.dll") = some k3) ∧
      win64_dirs fs3 g = win64_dirs fs g ∧
      (∀ e : UPath, MacNCheese_detect_exe fs g = some e →
        fsExists fs e.parentDir = true → ¬ e.parentDir = game_dir g →
        fsFind fs3 (e.parentDir.child "dxgi.dll") = some k1 ∧
        fsFind fs3 (e.parentDir.child "d3d11.dll") = some k2 ∧
        fsFind fs3 (e.parentDir.child "d3d10core.dll") = some k3) := by
    cases hdc : MacNCheese_detect_exe fs g with
    | none =>
      refine ⟨copy_dlls bin fs (game_dir g), ?_, ⟨hA1, hA2, hA3⟩,
        ⟨hAw1, hAw2, hAw3⟩, hw64A, ?_⟩
      · unfold patch_selected_game
        simp only [hfind_none]
        rw [hmk]
        simp only [hdet, hdc]
      · intro e he
        exact absurd he (by simp)
    | some e =>
      obtain ⟨relE, hrelE, herel⟩ := detect_shape hdc
      have hed : e.parentDir = (game_dir g).extend relE.dropLast := by
        rw [herel]
        exact parentDir_extend hrelE
      by_cases hcond : fsExists (copy_dlls bin fs (game_dir g)) e.parentDir = true ∧
          ¬ e.parentDir = game_dir g
      · have hedne : e.parentDir ≠ bin := by
          rw [hed]
          exact hgd_ne_bin _
        rcases copy_dlls_spec bin e.parentDir (copy_dlls bin fs (game_dir g))
            k1 k2 k3 hedne hA1 hA2 hA3 with
          ⟨hBeq, hB1, hB2, hB3, hBw1, hBw2, hBw3, hBun⟩
        have hgdneed : ∀ d ∈ dxvk_dlls, (game_dir g).child d ≠ e.parentDir.child d := by
          intro d _
          exact child_ne_of_base (fun hh => hcond.2 hh.symm)
        refine ⟨copy_dlls bin (copy_dlls bin fs (game_dir g)) e.parentDir,
          ?_, ⟨hB1, hB2, hB3⟩, ?_, ?_, ?_⟩
        · unfold patch_selected_game
          simp only [hfind_none]
          rw [hmk]
          simp only [hdet, hdc]
          rw [if_pos hcond]
        · refine ⟨?_, ?_, ?_⟩
          · rw [hBun _ (fun d hd => child_ne_of_base (fun hh => hcond.2 hh.symm))]
            exact hAw1
          · rw [hBun _ (fun d hd => child_ne_of_base (fun hh => hcond.2 hh.symm))]
            exact hAw2
          · rw [hBun _ (fun d hd => child_ne_of_base (fun hh => hcond.2 hh.symm))]
            exact hAw3
        · have hdne : relE.dropLast ≠ [] := by
            intro hdl
            apply hcond.2
            rw [hed, hdl, extend_nil]
          rw [hBeq, hed,
            extend_child (game_dir g) relE.dropLast "dxgi.dll",
            extend_child (game_dir g) relE.dropLast "d3d11.dll",
            extend_child (game_dir g) relE.dropLast "d3d10core.dll",
            win64_setFile _ g k3 (by simp) (by rw [relName_snoc]; decide),
            win64_setFile _ g k2 (by simp) (by rw [relName_snoc]; decide),
            win64_setFile _ g k1 (by simp) (by rw [relName_snoc]; decide)]
          exact hw64A
        · intro e2 he2 hex2 hne2
          have he2e : e2 = e := by
            injection he2 with hh
            exact hh.symm
          subst he2e
          exact ⟨hBw1, hBw2, hBw3⟩
      · refine ⟨copy_dlls bin fs (game_dir g), ?_, ⟨hA1, hA2, hA3⟩,
          ⟨hAw1, hAw2, hAw3⟩, hw64A, ?_⟩
        · unfold patch_selected_game
          simp only [hfind_none]
          rw [hmk]
          simp only [hdet, hdc]
          rw [if_neg hcond]
        · intro e2 he2 hex2 hne2
          have he2e : e2 = e := by
            injection he2 with hh
            exact hh.symm
          subst he2e
          exact absurd ⟨hmono _ hex2, hne2⟩ hcond
  rcases hstage with ⟨fs3, hPeq, ⟨hs1, hs2, hs3⟩, ⟨hg1, hg2, hg3⟩, hw64, hC⟩
  rw [hw64] at hPeq
  have hts : ∀ t ∈ sortBy pathLeB ((win64_dirs fs g).map
      (fun rel => (game_dir g).extend rel)), t ≠ bin := by
    intro t ht
    rcases List.mem_map.mp (sortBy_mem.mp ht) with ⟨rel, _, hrel⟩
    rw [← hrel]
    exact hgd_ne_bin rel
  rcases copy_fold_spec bin k1 k2 k3
      (sortBy pathLeB ((win64_dirs fs g).map (fun rel => (game_dir g).extend rel)))
      fs3 hts hs1 hs2 hs3 with ⟨_, hT, _, hV⟩
  have hdll3 : ∀ d ∈ dxvk_dlls,
      d = "dxgi.dll" ∨ d = "d3d11.dll" ∨ d = "d3d10core.dll" := by
    intro d hd
    simpa [dxvk_dlls] using hd
  refine ⟨?_, ?_, ?_, ?_⟩
  · rw [hPeq]
  · intro d hd
    rw [hPeq]
    rcases hdll3 d hd with rfl | rfl | rfl
    · rw [hK1]
      exact (hV (game_dir g)).1 hg1
    · rw [hK2]
      exact (hV (game_dir g)).2.1 hg2
    · rw [hK3]
      exact (hV (game_dir g)).2.2 hg3
  · intro e he hex2 hne2 d hd
    rcases hC e he hex2 hne2 with ⟨c1, c2, c3⟩
    rw [hPeq]
    rcases hdll3 d hd with rfl | rfl | rfl
    · rw [hK1]
      exact (hV e.parentDir).1 c1
    · rw [hK2]
      exact (hV e.parentDir).2.1 c2
    · rw [hK3]
      exact (hV e.parentDir).2.2 c3
  · intro rel hrel d hd
    have hmem : (game_dir g).extend rel ∈ sortBy pathLeB
        ((win64_dirs fs g).map (fun rel => (game_dir g).extend rel)) :=
      sortBy_mem.mpr (List.mem_map_of_mem _ hrel)
    rcases hT _ hmem with ⟨t1, t2, t3⟩
    rw [hPeq]
    rcases hdll3 d hd with rfl | rfl | rfl
    · rw [hK1]
      exact t1
    · rw [hK2]
      exact t2
    · rw [hK3]
      exact t3

theorem claim_C8_witness :
    (patch_selected_game fsC8 binFix gFoo).errors = [] ∧
    fsFind (patch_selected_game fsC8 binFix gFoo).fs
        ((game_dir gFoo).child "dxgi.dll") =
      fsFind fsC8 (binFix.child "dxgi.dll") ∧
    fsFind (patch_selected_game fsC8 binFix gFoo).fs
        (((game_dir gFoo).extend
          ["WindowsNoEditor", "Binaries", "Win64"]).child "d3d11.dll") =
      fsFind fsC8 (binFix.child "d3d11.dll") := by
  have h := claim_C8 fsC8 binFix gFoo (by decide) (by decide) (by decide) (by decide)
  exact ⟨h.1, h.2.1 "dxgi.dll" (by decide),
    h.2.2.2 ["WindowsNoEditor", "Binaries", "Win64"] (by decide) "d3d11.dll" (by decide)⟩
